import Mathlib

/-!
Verification development for the File-Organizer repository.

The development shallowly embeds the organize/undo engine of the repository:

* `src/src/file_organizer/filesystem/create_and_move.py` — the
  `LocalFileOrganizer` class (`_categorize_file`, `_check_cache`,
  `_find_category`, `_create_dir`, `_move_file`, `_flush_batch`,
  `_finalize_history`, `organize`);
* `src/src/history/manager.py` — `parse_history_file`, `get_last_history`,
  `undo_files`;
* `src/src/history/json_writers.py` — `write_one_line`, `write_entries`;
* `src/src/filesystem/dir_cleaner.py` — `remove_dirs`;
* `src/src/core/constants.py` and `src/constants.py` — `SystemProtector`
  (`is_allowed`, `is_protected`);
* `src/src/file_organizer/core/validator.py` — `validate_directory_access`.

Modelling conventions:

* A filesystem path is a list of name components below the root
  (`pathlib.Path` on a POSIX system, already resolved; symlink-free, so
  `resolve()` is the identity and resolution errors are modelled as an
  absent `Option` value where the source wraps resolution in `try`).
* The filesystem is a pair of finite sets: regular files and directories.
* Python floats for file sizes are embedded as exact rationals.  The source
  computes `file_size = size_bytes / (1000 * 1000)` and then compares this
  number against the configured `min_size_mb` / `max_size_mb` bounds.  The
  embedding keeps the byte count as a natural number and performs the two
  comparisons exactly, by cross multiplication with the bound's numerator
  and denominator; the lemmas `mbLeSize_iff` and `sizeLtMb_iff` relate the
  executable comparisons to the literal `size_bytes / 1000000` formula, so
  they denote exactly the source's comparisons (on the float-representable
  inputs the source can see, float rounding aside, which the specification
  also ignores).
* `datetime` timestamps recorded inside history entries are opaque and
  never inspected by any modelled routine, so they are omitted from the
  embedded history entries.
-/

/-- A resolved absolute path: the list of name components below the root. -/
abbrev FPath := List String

/-- The state of the filesystem: the set of regular files and the set of
directories, each identified by its resolved absolute path. -/
structure FS where
  files : Finset FPath
  dirs : Finset FPath
deriving DecidableEq

/-- The `Path.exists()` test: true when the path names a regular file or a
directory of the current filesystem. -/
def pathExistsIn (fs : FS) (p : FPath) : Prop := p ∈ fs.files ∨ p ∈ fs.dirs

instance (fs : FS) (p : FPath) : Decidable (pathExistsIn fs p) :=
  inferInstanceAs (Decidable (p ∈ fs.files ∨ p ∈ fs.dirs))

/-- Strict descendance: `q` lies strictly below the directory `p`. -/
def strictlyBelow (p q : FPath) : Prop := p <+: q ∧ p ≠ q

instance (p q : FPath) : Decidable (strictlyBelow p q) :=
  inferInstanceAs (Decidable (p <+: q ∧ p ≠ q))

/-- A directory is empty when nothing in the filesystem lies strictly
below it (`rmdir` succeeds exactly on such directories). -/
def dirIsEmpty (fs : FS) (p : FPath) : Prop :=
  (∀ q ∈ fs.files, ¬ strictlyBelow p q) ∧ (∀ q ∈ fs.dirs, ¬ strictlyBelow p q)

instance (fs : FS) (p : FPath) : Decidable (dirIsEmpty fs p) :=
  inferInstanceAs (Decidable ((∀ q ∈ fs.files, ¬ strictlyBelow p q) ∧
    (∀ q ∈ fs.dirs, ¬ strictlyBelow p q)))

/-- Well-formedness of a filesystem snapshot: no path is both a file and a
directory, and every strict ancestor of a file or directory is a directory. -/
structure FSWF (fs : FS) : Prop where
  disj : ∀ p ∈ fs.files, p ∉ fs.dirs
  fileAnc : ∀ p ∈ fs.files, ∀ q, q <+: p → q ≠ p → q ∈ fs.dirs
  dirAnc : ∀ p ∈ fs.dirs, ∀ q, q <+: p → q ≠ p → q ∈ fs.dirs

/-! ### Python `pathlib` name splitting

`PurePath.suffix` is the final extension: the part of the final component
from its last dot on, provided that dot is neither the first nor the last
character of the name; `PurePath.stem` is the rest of the name. -/

/-- Index of the last occurrence of `'.'` in a character list, if any. -/
def lastDotIdx (cs : List Char) : Option Nat :=
  match cs.reverse.findIdx? (fun c => c = '.') with
  | none => none
  | some j => some (cs.length - 1 - j)

/-- The `pathlib` suffix of a file name. -/
def pySuffix (name : String) : String :=
  match lastDotIdx name.data with
  | none => ""
  | some i => if 0 < i ∧ i < name.data.length - 1 then ⟨name.data.drop i⟩ else ""

/-- The `pathlib` stem of a file name. -/
def pyStem (name : String) : String :=
  match lastDotIdx name.data with
  | none => name
  | some i => if 0 < i ∧ i < name.data.length - 1 then ⟨name.data.take i⟩ else name

/-- The name of a path: its final component (empty for the root). -/
def nameOf (p : FPath) : String := p.getLast?.getD ""

/-- The parent of a path (`Path.parent`). -/
def parentOf (p : FPath) : FPath := p.dropLast

/-- Decimal digit characters, as produced by Python string formatting. -/
def decChar (d : Nat) : Char :=
  match d with
  | 0 => '0' | 1 => '1' | 2 => '2' | 3 => '3' | 4 => '4'
  | 5 => '5' | 6 => '6' | 7 => '7' | 8 => '8' | 9 => '9'
  | _ => '*'

/-- Numeric value of a digit character produced by `decChar`. -/
def decCharVal (c : Char) : Nat :=
  match c with
  | '0' => 0 | '1' => 1 | '2' => 2 | '3' => 3 | '4' => 4
  | '5' => 5 | '6' => 6 | '7' => 7 | '8' => 8 | '9' => 9
  | _ => 10

/-- Decimal rendering of a natural number, as Python's `str`/f-string
formatting produces it. -/
def natRepr (n : Nat) : String :=
  if n = 0 then "0" else ⟨((Nat.digits 10 n).reverse.map decChar)⟩

/-! ### Sizes

`format_size_to_mb` divides the byte count by `1000 * 1000` (decimal MB).
The embedding keeps the byte count and compares the exact rational
`bytes / 1000000` against a configured bound by cross multiplication. -/

/-- The exact value computed by `format_size_to_mb` (its `size_bytes == 0`
special case returns the same value `0`). -/
def formatSizeToMb (bytes : Nat) : ℚ := (bytes : ℚ) / 1000000

/-- Executable form of `bound <= size_bytes / 1000000`. -/
def mbLeSize (q : ℚ) (bytes : Nat) : Bool :=
  decide (q.num * 1000000 ≤ (bytes : Int) * q.den)

/-- Executable form of `size_bytes / 1000000 < bound`. -/
def sizeLtMb (bytes : Nat) (q : ℚ) : Bool :=
  decide ((bytes : Int) * q.den < q.num * 1000000)

/-! ### Rule configuration (`FileCategories`)

A category is a dict with keys `name`, `extensions` (list), and optional
`variants`; a variant is a dict with optional `name`, `min_size_mb`,
`max_size_mb`.  Missing dict keys are embedded as `Option` values; the
source reads them with `.get(key, default)`. -/

/-- A size variant of a category (`variants` list entry). -/
structure SizeVariant where
  vname : Option String
  minSizeMb : Option ℚ
  maxSizeMb : Option ℚ
deriving DecidableEq

/-- A category rule. -/
structure Category where
  cname : String
  extensions : List String
  variants : List SizeVariant
deriving DecidableEq

/-- The validated in-memory rule set (`file_categories`): the category list
in declaration order plus the `defaults.name` fallback. -/
structure FileCategories where
  categories : List Category
  defaultName : String
deriving DecidableEq

/-- Fatal configuration errors: `typer.Exit(1)` raised from the matcher. -/
inductive ConfigError where
  | variantMissingName
deriving DecidableEq

/-- The variant scan inside `_find_category`: first variant whose size band
contains the file size wins and contributes the `"<variant>-"` prefix; a
matching variant without a `name` key is the fatal configuration error. -/
def matchVariant (variants : List SizeVariant) (bytes : Nat) :
    Except ConfigError String :=
  match variants with
  | [] => .ok ""
  | v :: rest =>
      if mbLeSize (v.minSizeMb.getD 0) bytes &&
          (match v.maxSizeMb with
           | none => true
           | some mx => sizeLtMb bytes mx) then
        match v.vname with
        | none => .error .variantMissingName
        | some n => .ok (n ++ "-")
      else matchVariant rest bytes

/-- The category scan of `_find_category` over the remaining categories:
first category whose `extensions` contain the (verbatim) suffix wins; the
destination is the variant prefix followed by the category name, and the
configured default if no category matches. -/
def findCategoryFrom (cats : List Category) (defaultName suffix : String)
    (bytes : Nat) : Except ConfigError String :=
  match cats with
  | [] => .ok defaultName
  | c :: rest =>
      if suffix ∈ c.extensions then
        (matchVariant c.variants bytes).map (fun pre => pre ++ c.cname)
      else findCategoryFrom rest defaultName suffix bytes

/-- `LocalFileOrganizer._find_category`, as a function of the file's
suffix and byte size. -/
def findCategory (cfg : FileCategories) (suffix : String) (bytes : Nat) :
    Except ConfigError String :=
  findCategoryFrom cfg.categories cfg.defaultName suffix bytes

/-- The cache key of `suffix_to_category_mapping`:
`(file.suffix, dir_min_size, dir_max_size)`, where `float("inf")` is the
absent upper bound. -/
abbrev CacheKey := String × ℚ × Option ℚ

/-- The memoization dict `suffix_to_category_mapping`, in insertion order. -/
abbrev RuleCache := List (CacheKey × String)

instance cacheKeyDecEq : DecidableEq CacheKey := inferInstance

instance ruleCacheDecEq : DecidableEq RuleCache := inferInstance

/-- One bound check of `_check_cache`: `min_size <= file_size < max_size`. -/
def cacheBandHit (mn : ℚ) (mx : Option ℚ) (bytes : Nat) : Bool :=
  mbLeSize mn bytes &&
    (match mx with
     | none => true
     | some m => sizeLtMb bytes m)

/-- `LocalFileOrganizer._check_cache`: scan the cached mappings in
insertion order; return the cached destination of the first entry whose
suffix matches and whose band contains the file size, and `""` on a miss. -/
def checkCache (cache : RuleCache) (suffix : String) (bytes : Nat) : String :=
  match cache with
  | [] => ""
  | ((sfx, mn, mx), dest) :: rest =>
      if sfx = suffix ∧ cacheBandHit mn mx bytes = true then dest
      else checkCache rest suffix bytes

/-- Python dict assignment `d[k] = v`: overwrite in place, else append. -/
def cacheInsert (cache : RuleCache) (k : CacheKey) (v : String) : RuleCache :=
  if cache.any (fun kv => kv.1 = k) then
    cache.map (fun kv => if kv.1 = k then (k, v) else kv)
  else cache ++ [(k, v)]

/-- `LocalFileOrganizer._categorize_file`: consult the cache first; on a
miss run `_find_category` and record the result under the key
`(file.suffix, dir_min_size, dir_max_size)` — where `dir_min_size` and
`dir_max_size` are the local variables of `_categorize_file`, which the
source sets to `0, float("inf")` and never updates from the match. -/
def categorizeFile (cfg : FileCategories) (cache : RuleCache) (suffix : String)
    (bytes : Nat) : Except ConfigError (String × RuleCache) :=
  let hit := checkCache cache suffix bytes
  if hit ≠ "" then .ok (hit, cache)
  else
    match findCategory cfg suffix bytes with
    | .error e => .error e
    | .ok dest => .ok (dest, cacheInsert cache (suffix, 0, none) dest)

/-- All destination names the matcher can produce from a rule set. -/
def destNames (cfg : FileCategories) : List String :=
  cfg.defaultName ::
    cfg.categories.flatMap (fun c =>
      c.cname :: c.variants.filterMap (fun v => v.vname.map (fun n => n ++ "-" ++ c.cname)))

/-- Well-formedness of a rule set, as the specification requires: the
default and every category carry a non-empty name. -/
structure CfgWF (cfg : FileCategories) : Prop where
  defaultNe : cfg.defaultName ≠ ""
  catNe : ∀ c ∈ cfg.categories, c.cname ≠ ""

/-! ### Collision handling in `_move_file`

`_move_file` starts from `destination_path / file.name` and, while the
target exists, retries with `f"{file.stem}_{counter}{file.suffix}"` for
`counter = 1, 2, …`.  The loop is embedded with enough fuel that, by a
pigeonhole argument over the finitely many occupied paths, a free
candidate is always reached (`chooseTarget_free`). -/

/-- The collision candidate name `f"{stem}_{counter}{suffix}"`. -/
def collisionName (stem sfx : String) (k : Nat) : String :=
  stem ++ "_" ++ natRepr k ++ sfx

/-- The collision retry loop of `_move_file`, fuelled. -/
def chooseTargetAux (fs : FS) (destPath : FPath) (stem sfx : String) :
    Nat → Nat → FPath
  | 0, k => destPath ++ [collisionName stem sfx k]
  | fuel + 1, k =>
      let cand := destPath ++ [collisionName stem sfx k]
      if pathExistsIn fs cand then chooseTargetAux fs destPath stem sfx fuel (k + 1)
      else cand

/-- The target path selected by `_move_file` for a file named `name`. -/
def chooseTarget (fs : FS) (destPath : FPath) (name : String) : FPath :=
  if pathExistsIn fs (destPath ++ [name]) then
    chooseTargetAux fs destPath (pyStem name) (pySuffix name)
      (fs.files.card + fs.dirs.card + 1) 1
  else destPath ++ [name]

/-! ### History entries and the organize state machine

History entries carry a `datetime` timestamp in the source; the timestamp
is never read back by any modelled routine and is omitted here.  The
history file content written by `write_one_line` / `write_entries` is
accumulated in `historyText` (this run's appended bytes). -/

/-- A history log entry (`batch_entries` element). -/
inductive HEntry where
  | createDir (path : FPath) (status : String)
  | moveFile (source destination : FPath) (originalName status : String)
deriving DecidableEq

/-- The `status` field of an entry. -/
def entryStatus : HEntry → String
  | .createDir _ st => st
  | .moveFile _ _ _ st => st

/-- Rendering of a path in log entries (`str(path)`). -/
def joinPath (p : FPath) : String :=
  p.foldl (fun acc c => acc ++ "/" ++ c) ""

/-- The `json.dumps` serialization of one entry (timestamp omitted). -/
def entryJson : HEntry → String
  | .createDir p st =>
      "\x7b\"action\": \"create_dir\", \"path\": \"" ++ joinPath p ++
        "\", \"status\": \"" ++ st ++ "\"\x7d"
  | .moveFile s d onm st =>
      "\x7b\"action\": \"move_file\", \"source\": \"" ++ joinPath s ++
        "\", \"destination\": \"" ++ joinPath d ++ "\", \"original_name\": \"" ++
        onm ++ "\", \"status\": \"" ++ st ++ "\"\x7d"

/-- The text appended by one `write_entries` call: each entry is preceded
by `",\n"` except the first entry of the whole file. -/
def renderEntries (first : Bool) : List HEntry → String
  | [] => ""
  | e :: rest => (if first then "" else ",\n") ++ entryJson e ++ renderEntries false rest

/-- `LocalFileOrganizer.BATCH_SIZE`. -/
def batchSize : Nat := 50

/-- The mutable state of a `LocalFileOrganizer` run.  `entries` is the
cumulative list of all entries ever appended to `batch_entries` (a ghost
projection of the history the run writes); `sealWritten` records whether
the closing `"\n]"` has been written. -/
structure OrgState where
  fs : FS
  cache : RuleCache
  createdDirs : List FPath
  createdDirCount : Nat
  movedFilesCount : Nat
  errorsCount : Nat
  entries : List HEntry
  batch : List HEntry
  historyText : String
  firstEntry : Bool
  sealWritten : Bool

/-- The state right after `__init__`: counters zeroed, empty cache and
batch, and `"[\n"` written to a fresh history file unless this is a dry
run or the run continues an existing file. -/
def initOrgState (fs₀ : FS) (dryRun newHistoryFile : Bool) : OrgState :=
  { fs := fs₀, cache := [], createdDirs := [], createdDirCount := 0,
    movedFilesCount := 0, errorsCount := 0, entries := [], batch := [],
    historyText := if !dryRun && newHistoryFile then "[\n" else "",
    firstEntry := true, sealWritten := false }

/-- `LocalFileOrganizer._create_dir`: create the destination directory
when it is neither recorded in `created_dirs` nor present on disk; count
it, remember it, and (outside dry runs) log a `create_dir` entry. -/
def createDirStep (dryRun : Bool) (st : OrgState) (destPath : FPath) : OrgState :=
  if destPath ∉ st.createdDirs ∧ ¬ pathExistsIn st.fs destPath then
    let st1 : OrgState :=
      { st with
        fs := if dryRun then st.fs else ⟨st.fs.files, insert destPath st.fs.dirs⟩,
        createdDirs := st.createdDirs ++ [destPath],
        createdDirCount := st.createdDirCount + 1 }
    if dryRun then st1
    else
      { st1 with batch := st1.batch ++ [.createDir destPath "success"],
                 entries := st1.entries ++ [.createDir destPath "success"] }
  else st

/-- `LocalFileOrganizer._move_file`: pick a collision-free target, then
move the file and log a `move_file` entry whose `source` is the new
location and whose `destination` is the original location.  A dry run only
counts.  The `rename`/`copy2` pair raises exactly when the target's parent
directory is missing or not a directory (the occupied-target case cannot
arise, the collision loop having just selected a free target); the raise
is caught by the surrounding `except` and counted as an error without
mutating anything. -/
def moveFileStep (dryRun : Bool) (st : OrgState) (f destPath : FPath)
    (name : String) : OrgState :=
  let target := chooseTarget st.fs destPath name
  if dryRun then { st with movedFilesCount := st.movedFilesCount + 1 }
  else if destPath ∈ st.fs.dirs then
    { st with
      fs := ⟨insert target (st.fs.files.erase f), st.fs.dirs⟩,
      movedFilesCount := st.movedFilesCount + 1,
      batch := st.batch ++ [.moveFile target f name "success"],
      entries := st.entries ++ [.moveFile target f name "success"] }
  else { st with errorsCount := st.errorsCount + 1 }

/-- `LocalFileOrganizer._flush_batch`. -/
def flushBatch (st : OrgState) : OrgState :=
  { st with historyText := st.historyText ++ renderEntries st.firstEntry st.batch,
            firstEntry := false, batch := [] }

/-- `LocalFileOrganizer._finalize_history`: write the remaining entries,
then the closing `"\n]"` if this run handles the last directory, and a
continuation `",\n"` otherwise. -/
def finalizeHistory (lastDir : Bool) (st : OrgState) : OrgState :=
  let st1 : OrgState :=
    { st with historyText := st.historyText ++ renderEntries st.firstEntry st.batch,
              firstEntry := false, batch := [] }
  if lastDir then { st1 with historyText := st1.historyText ++ "\n]", sealWritten := true }
  else { st1 with historyText := st1.historyText ++ ",\n" }

/-- One iteration of `_iterate_files` for the file `f`, including the
dynamic checks of the `_create_files_gen` generator that depend on the
evolving state (`f.is_file()` and the created-directories exclusion; the
static pattern/hidden/depth filters are applied to the candidate list
itself).  `sizes` gives each path's `st_size`.  `destination_dir` is
joined with `file.parent`; `Path.joinpath("")` leaves the path unchanged. -/
def organizeStep (cfg : FileCategories) (sizes : FPath → Nat) (dryRun : Bool)
    (st : OrgState) (f : FPath) : Except ConfigError OrgState :=
  if f ∉ st.fs.files then .ok st
  else if st.createdDirs.any (fun cd => cd.isPrefixOf f) then .ok st
  else
    match categorizeFile cfg st.cache (pySuffix (nameOf f)) (sizes f) with
    | .error e => .error e
    | .ok (dest, cache2) =>
        let destPath := parentOf f ++ (if dest = "" then [] else [dest])
        let st2 := createDirStep dryRun { st with cache := cache2 } destPath
        let st3 := moveFileStep dryRun st2 f destPath (nameOf f)
        .ok (if batchSize ≤ st3.batch.length ∧ dryRun = false then flushBatch st3 else st3)

/-- The file loop of `organize` over the candidate list. -/
def orgFold (cfg : FileCategories) (sizes : FPath → Nat) (dryRun : Bool) :
    List FPath → OrgState → Except ConfigError OrgState
  | [], st => .ok st
  | f :: rest, st =>
      match organizeStep cfg sizes dryRun st f with
      | .error e => .error e
      | .ok st2 => orgFold cfg sizes dryRun rest st2

/-- `LocalFileOrganizer.organize` on a candidate file list: run the file
loop from the freshly initialized state, then flush the remaining batch
entries and seal or continue the history file — but only when the batch
is non-empty and this is not a dry run.  (With an empty candidate list the
source exits early; the resulting state is the same as running the empty
loop, so no separate case is needed.) -/
def organizeRun (cfg : FileCategories) (sizes : FPath → Nat)
    (dryRun newHistoryFile lastDir : Bool) (cands : List FPath) (fs₀ : FS) :
    Except ConfigError OrgState :=
  match orgFold cfg sizes dryRun cands (initOrgState fs₀ dryRun newHistoryFile) with
  | .error e => .error e
  | .ok st => .ok (if st.batch ≠ [] ∧ dryRun = false then finalizeHistory lastDir st else st)

/-! ### Undo (`history/manager.py: undo_files`) and directory cleanup
(`filesystem/dir_cleaner.py: remove_dirs`) -/

/-- Accumulated state of `undo_files`: the filesystem plus
`moved_back_count`, `errors_count` and the collected `dirs_path`. -/
structure UndoAcc where
  fs : FS
  movedBackCount : Nat
  errorsCount : Nat
  dirsPath : List FPath

/-- Processing of one history entry by `undo_files`: non-`success`
entries are skipped; a `move_file` entry is replayed
(`source_path.rename(destination_path)`) only when the logged source
still exists and the logged destination does not; a `create_dir` entry
only collects its path.  A replayed source is a regular file (the logged
new location of a moved file) and its destination's parent still exists
while `undo_files` runs, so the rename itself does not fail; OS-level
rename failures (the `errors_count` branch) are outside the model. -/
def undoStep (acc : UndoAcc) (e : HEntry) : UndoAcc :=
  if entryStatus e ≠ "success" then acc
  else
    match e with
    | .moveFile source destination _ _ =>
        if ¬ pathExistsIn acc.fs source then acc
        else if pathExistsIn acc.fs destination then acc
        else
          { acc with
            fs := ⟨insert destination (acc.fs.files.erase source), acc.fs.dirs⟩,
            movedBackCount := acc.movedBackCount + 1 }
    | .createDir p _ => { acc with dirsPath := acc.dirsPath ++ [p] }

/-- `undo_files` over the streamed history entries, in file order. -/
def undoFiles (entries : List HEntry) (fs : FS) : UndoAcc :=
  entries.foldl undoStep ⟨fs, 0, 0, []⟩

/-- One iteration of the `remove_dirs` loop.  `rmdir` succeeds exactly on
an existing empty directory; on any `OSError` (non-empty directory, or
the path is a regular file) the error is counted unless
`skip_os_errors` is set.  In dry-run mode an empty directory is only
counted. -/
def removeOneDir (dryRun skipOsErrors : Bool) (acc : FS × Nat × Nat) (p : FPath) :
    FS × Nat × Nat :=
  if ¬ pathExistsIn acc.1 p then acc
  else if dryRun = false then
    if p ∈ acc.1.dirs ∧ dirIsEmpty acc.1 p then
      (⟨acc.1.files, acc.1.dirs.erase p⟩, acc.2.1 + 1, acc.2.2)
    else if skipOsErrors then acc
    else (acc.1, acc.2.1, acc.2.2 + 1)
  else
    if p ∈ acc.1.dirs ∧ dirIsEmpty acc.1 p then (acc.1, acc.2.1 + 1, acc.2.2) else acc

/-- The `remove_dirs` loop body: iterate the directory list in reverse
order.  Returns the filesystem together with
`(removed_dirs_count, errors_count)`. -/
def removeDirsLoop (dryRun skipOsErrors : Bool) (dirsPath : List FPath) (fs : FS) :
    FS × Nat × Nat :=
  dirsPath.reverse.foldl (removeOneDir dryRun skipOsErrors) (fs, 0, 0)

/-- `remove_dirs(dirs_path=…)`: an explicit directory list is processed
with `skip_os_errors = False`. -/
def removeDirsOfList (dryRun : Bool) (dirsPath : List FPath) (fs : FS) :
    FS × Nat × Nat :=
  removeDirsLoop dryRun false dirsPath fs

/-- `remove_dirs(path=…)`: the candidate list is the immediate
subdirectories of `path` (`[f for f in path.iterdir() if f.is_dir()]`, in
some enumeration order) and `skip_os_errors = True`.  This is the cleanup
pass `organize_many_dirs` runs after each non-dry-run directory. -/
def removeDirsOfPath (dryRun : Bool) (subs : List FPath) (fs : FS) :
    FS × Nat × Nat :=
  removeDirsLoop dryRun true subs fs

/-- The property that `subs` enumerates exactly the immediate
subdirectories of `path` in the filesystem, as `path.iterdir()` filtered
by `is_dir()` produces them. -/
def enumeratesSubdirs (fs : FS) (path : FPath) (subs : List FPath) : Prop :=
  subs.Nodup ∧ ∀ q, q ∈ subs ↔ (q ∈ fs.dirs ∧ ∃ n, q = path ++ [n])

/-! ### PathGuard (`SystemProtector`) -/

/-- The `_core_protected` deny-list of `src/constants.py`, with each entry
parsed as a resolved path (the root `/` is the empty component list; the
Windows-style entries parse on POSIX as single relative components and
never prefix an absolute path). -/
def coreProtected : List FPath :=
  [[], ["bin"], ["sbin"], ["usr"], ["etc"], ["var"], ["root"], ["dev"],
   ["proc"], ["sys"], ["boot"], ["System"], ["Library"], ["Applications"],
   ["C:\\Windows"], ["C:\\Program Files"], ["C:\\Program Files (x86)"],
   ["C:\\ProgramData"], ["C:\\$Recycle.Bin"]]

/-- The `_protected_hidden` sensitive-name set of `src/constants.py`. -/
def protectedHidden : List String :=
  [".config", ".local", ".cache", ".ssh", ".gnupg", ".pki", ".npm", ".docker",
   ".git", ".svn", ".venv", ".env", ".bashrc", ".zshrc", ".bash_profile",
   ".profile", ".vim"]

/-- `SystemProtector.is_protected` of `src/constants.py`, as a function of
the user's home directory and the outcome of `path.resolve().absolute()`
(`none` when resolution raised; the `except` branch fails closed with
`True`). -/
def isProtected (home : FPath) (rp : Option FPath) : Bool :=
  match rp with
  | none => true
  | some p =>
      if p = home then true
      else if home.isPrefixOf p then p.any (fun part => decide (part ∈ protectedHidden))
      else if coreProtected.any (fun cp => cp.isPrefixOf p) then true
      else false

/-- `SystemProtector.is_allowed` of `src/src/core/constants.py`, as a
function of the resolved per-OS allow-list (`_resolve_paths` applied
environment-variable expansion already), the home directory, and the
outcome of resolving the queried path (`none` when resolution raised; the
`except` branch fails closed with `False`). -/
def isAllowed (allowed : List FPath) (home : FPath) (rp : Option FPath) : Bool :=
  match rp with
  | none => false
  | some p =>
      if p = home then false
      else allowed.any (fun a => a.isPrefixOf p)

/-- `validate_directory_access` of `src/src/file_organizer/core/validator.py`
(and, identically, `src/src/core/validator.py`), as a function of the
`force` flag and of the outcomes of the four probes it runs in order:
`path.exists()`, `path.is_dir()`, `os.access(path, os.R_OK | os.W_OK)`
and `protector.is_allowed(path)`. -/
def validateDirectoryAccess (force pexists pisdir paccess pallowed : Bool) : Bool :=
  if force then true
  else if pexists = false then false
  else if pisdir = false then false
  else if paccess = false then false
  else if pallowed = false then false
  else true

/-! ### History discovery (`history/manager.py`)

`parse_history_file` runs
`datetime.strptime(stem.replace("history_", ""), "%Y%m%d_%H%M%S")`.
CPython compiles the format to the regex
`(\d\d\d\d)(1[0-2]|0[1-9]|[1-9])(3[01]|[12]\d|0[1-9]|[1-9])_(2[0-3]|[0-1]\d|\d)([0-5]\d|\d)([0-5]\d|\d)`,
matches it with backtracking (alternatives tried in the listed order),
raises `ValueError` when the regex fails or leaves unconverted trailing
data, and finally constructs a `datetime`, which raises `ValueError` for
a day beyond the month's length or a year below 1. -/

/-- A parsed `%Y%m%d_%H%M%S` timestamp. -/
structure TStamp where
  year : Nat
  month : Nat
  day : Nat
  hour : Nat
  minute : Nat
  second : Nat
deriving DecidableEq

/-- Digit test matching `decCharVal` (10 is the non-digit sentinel). -/
def isDigitCh (c : Char) : Bool := decCharVal c < 10

/-- Parse result continuation plumbing for the hand-compiled regex. -/
def pbind (p : Option (Nat × List Char)) (k : Nat → List Char → Option (TStamp × List Char)) :
    Option (TStamp × List Char) :=
  match p with
  | none => none
  | some (v, r) => k v r

/-- The `\d\d\d\d` year group. -/
def parseY4 (cs : List Char) : Option (Nat × List Char) :=
  match cs with
  | a :: b :: c :: d :: rest =>
      if isDigitCh a && isDigitCh b && isDigitCh c && isDigitCh d then
        some (((decCharVal a * 10 + decCharVal b) * 10 + decCharVal c) * 10 + decCharVal d, rest)
      else none
  | _ => none

/-- A two-character numeric alternative with the given bounds on the two
digit values and the resulting value. -/
def parse2 (lo1 hi1 lo2 hi2 : Nat) (cs : List Char) : Option (Nat × List Char) :=
  match cs with
  | a :: b :: rest =>
      if isDigitCh a && isDigitCh b && lo1 ≤ decCharVal a && decCharVal a ≤ hi1 &&
          lo2 ≤ decCharVal b && decCharVal b ≤ hi2 then
        some (decCharVal a * 10 + decCharVal b, rest)
      else none
  | _ => none

/-- A one-character numeric alternative with the given bounds. -/
def parse1 (lo hi : Nat) (cs : List Char) : Option (Nat × List Char) :=
  match cs with
  | a :: rest =>
      if isDigitCh a && lo ≤ decCharVal a && decCharVal a ≤ hi then
        some (decCharVal a, rest)
      else none
  | _ => none

/-- The month group `1[0-2]|0[1-9]|[1-9]`, with backtracking. -/
def parseMo (cs : List Char) (k : Nat → List Char → Option (TStamp × List Char)) :
    Option (TStamp × List Char) :=
  (pbind (parse2 1 1 0 2 cs) k) <|> (pbind (parse2 0 0 1 9 cs) k) <|>
    (pbind (parse1 1 9 cs) k)

/-- The day group `3[01]|[12]\d|0[1-9]|[1-9]`, with backtracking. -/
def parseDay (cs : List Char) (k : Nat → List Char → Option (TStamp × List Char)) :
    Option (TStamp × List Char) :=
  (pbind (parse2 3 3 0 1 cs) k) <|> (pbind (parse2 1 2 0 9 cs) k) <|>
    (pbind (parse2 0 0 1 9 cs) k) <|> (pbind (parse1 1 9 cs) k)

/-- The hour group `2[0-3]|[0-1]\d|\d`, with backtracking. -/
def parseHour (cs : List Char) (k : Nat → List Char → Option (TStamp × List Char)) :
    Option (TStamp × List Char) :=
  (pbind (parse2 2 2 0 3 cs) k) <|> (pbind (parse2 0 1 0 9 cs) k) <|>
    (pbind (parse1 0 9 cs) k)

/-- The minute/second group `[0-5]\d|\d`, with backtracking. -/
def parseMinSec (cs : List Char) (k : Nat → List Char → Option (TStamp × List Char)) :
    Option (TStamp × List Char) :=
  (pbind (parse2 0 5 0 9 cs) k) <|> (pbind (parse1 0 9 cs) k)

/-- The full `%Y%m%d_%H%M%S` regex match with backtracking, returning the
leftmost-preference parse and the unconsumed remainder. -/
def strptimeHist (cs : List Char) : Option (TStamp × List Char) :=
  pbind (parseY4 cs) fun y r1 =>
  parseMo r1 fun mo r2 =>
  parseDay r2 fun d r3 =>
  (match r3 with
   | '_' :: r4 =>
      parseHour r4 fun h r5 =>
      parseMinSec r5 fun mi r6 =>
      parseMinSec r6 fun s r7 =>
      some (⟨y, mo, d, h, mi, s⟩, r7)
   | _ => none)

/-- Gregorian leap years, as `datetime` validates them. -/
def isLeapYear (y : Nat) : Bool := y % 4 = 0 && (y % 100 ≠ 0 || y % 400 = 0)

/-- Days of each month, as `datetime` validates them. -/
def daysInMonth (y mo : Nat) : Nat :=
  match mo with
  | 1 => 31 | 2 => if isLeapYear y then 29 else 28 | 3 => 31 | 4 => 30
  | 5 => 31 | 6 => 30 | 7 => 31 | 8 => 31 | 9 => 30 | 10 => 31
  | 11 => 30 | 12 => 31 | _ => 0

/-- `parse_history_file` on a stem string: `some` is the parsed timestamp,
`none` an (uncaught) `ValueError` — from a failed regex match, trailing
unconverted data, or an invalid calendar date. -/
def parseHistoryStamp (stem : String) : Option TStamp :=
  match strptimeHist stem.data with
  | none => none
  | some (ts, rest) =>
      if rest = [] ∧ 1 ≤ ts.year ∧ ts.day ≤ daysInMonth ts.year ts.month then some ts
      else none

/-- Python's `str.replace(pat, "")`: delete all non-overlapping
occurrences of `pat`, scanning left to right (fuelled structurally; the
fuel is the string length, which always suffices). -/
def replaceDelF (pat : List Char) : Nat → List Char → List Char
  | _, [] => []
  | 0, cs => cs
  | fuel + 1, c :: rest =>
      if pat.isPrefixOf (c :: rest) then
        replaceDelF pat fuel ((c :: rest).drop pat.length)
      else c :: replaceDelF pat fuel rest

/-- String-level wrapper for `str.replace(pat, "")`. -/
def pyReplaceDel (pat s : String) : String := ⟨replaceDelF pat.data s.data.length s.data⟩

/-- Outcome of `get_last_history`. -/
inductive HistResult where
  | valueError
  | exitNoLogsDir
  | exitNoHistory
  | ok (filename : String)
deriving DecidableEq

/-- The scan loop of `get_last_history` over the names in the logs
directory: skip names without the `.json` suffix, skip names not starting
with `history_`, and parse the rest; `none` models the `ValueError` that
`parse_history_file` raises and nothing catches. -/
def collectStamps : List String → Option (List TStamp)
  | [] => some []
  | n :: rest =>
      if pySuffix n ≠ ".json" then collectStamps rest
      else if ¬ ("history_".data.isPrefixOf n.data) then collectStamps rest
      else
        match parseHistoryStamp (pyReplaceDel "history_" (pyStem n)) with
        | none => none
        | some ts => (collectStamps rest).map (fun l => ts :: l)

/-- Two-digit zero-padded rendering (`%m%d%H%M%S` fields of `strftime`). -/
def pad2 (n : Nat) : String := if n < 10 then "0" ++ natRepr n else natRepr n

/-- Four-digit zero-padded rendering (`%Y`). -/
def pad4 (n : Nat) : String :=
  if n < 10 then "000" ++ natRepr n
  else if n < 100 then "00" ++ natRepr n
  else if n < 1000 then "0" ++ natRepr n
  else natRepr n

/-- `strftime("%Y%m%d_%H%M%S")`. -/
def fmtStamp (ts : TStamp) : String :=
  pad4 ts.year ++ pad2 ts.month ++ pad2 ts.day ++ "_" ++ pad2 ts.hour ++
    pad2 ts.minute ++ pad2 ts.second

/-- A single sort key equivalent to `datetime` comparison for in-range
field values. -/
def stampKey (ts : TStamp) : Nat :=
  ((((ts.year * 100 + ts.month) * 100 + ts.day) * 100 + ts.hour) * 100 +
      ts.minute) * 100 + ts.second

/-- The maximum timestamp (the head after the descending sort). -/
def maxStamp (h : TStamp) (rest : List TStamp) : TStamp :=
  rest.foldl (fun acc ts => if stampKey acc < stampKey ts then ts else acc) h

/-- `get_last_history`: fail when the logs directory is missing, scan the
directory entries (raising `ValueError` on a malformed matching name),
report the recoverable no-history condition on an empty collection, and
otherwise return `history_<maximal timestamp>.json`. -/
def getLastHistory (logsDirPresent : Bool) (names : List String) : HistResult :=
  if logsDirPresent = false then .exitNoLogsDir
  else
    match collectStamps names with
    | none => .valueError
    | some [] => .exitNoHistory
    | some (ts :: rest) => .ok ("history_" ++ fmtStamp (maxStamp ts rest) ++ ".json")

/-- Decidable equality of `Except` results (for evaluating the model on
concrete inputs). -/
instance exceptDecEq {ε α : Type} [DecidableEq ε] [DecidableEq α] :
    DecidableEq (Except ε α) := fun a b =>
  match a, b with
  | .error e, .error f =>
      match decEq e f with
      | isTrue h => isTrue (congrArg Except.error h)
      | isFalse h => isFalse (fun hc => h (Except.error.inj hc))
  | .error _, .ok _ => isFalse (fun hc => Except.noConfusion hc)
  | .ok _, .error _ => isFalse (fun hc => Except.noConfusion hc)
  | .ok x, .ok y =>
      match decEq x y with
      | isTrue h => isTrue (congrArg Except.ok h)
      | isFalse h => isFalse (fun hc => h (Except.ok.inj hc))

/-! ### Ghost projections, run invariants, and the undo command -/

/-- The successful moves recorded in an entry list, in order, as
`(original location, new location)` pairs: a `move_file` entry's
`destination` field is the original location and its `source` field the
new one. -/
def movesOf (entries : List HEntry) : List (FPath × FPath) :=
  entries.filterMap (fun e =>
    match e with
    | .moveFile s d _ _ => some (d, s)
    | _ => none)

/-- The `create_dir` paths recorded in an entry list, in order. -/
def createsOf (entries : List HEntry) : List FPath :=
  entries.filterMap (fun e =>
    match e with
    | .createDir p _ => some p
    | _ => none)

/-- Invariant tying a mid-run organizer state to the initial filesystem
`fs₀` for a run rooted at the directory `d` whose candidates are all
immediate children of `d`: `ms` is the ghost list of performed moves. -/
structure OrgInvMs (d : FPath) (cfg : FileCategories) (fs₀ : FS) (st : OrgState)
    (ms : List (FPath × FPath)) : Prop where
  filesEq : st.fs.files =
    (fs₀.files \ (ms.map Prod.fst).toFinset) ∪ (ms.map Prod.snd).toFinset
  dirsEq : st.fs.dirs = fs₀.dirs ∪ st.createdDirs.toFinset
  origsShape : ∀ m ∈ ms, ∃ n, m.1 = d ++ [n]
  origsMem : ∀ m ∈ ms, m.1 ∈ fs₀.files
  origsNodup : (ms.map Prod.fst).Nodup
  targetsLen : ∀ m ∈ ms, m.2.length = d.length + 2
  targetsFresh : ∀ m ∈ ms, m.2 ∉ fs₀.files ∧ m.2 ∉ fs₀.dirs
  targetsNodup : (ms.map Prod.snd).Nodup
  createdShape : ∀ c ∈ st.createdDirs, ∃ n, c = d ++ [n]
  createdFresh : ∀ c ∈ st.createdDirs, c ∉ fs₀.dirs ∧ c ∉ fs₀.files
  createdNodup : st.createdDirs.Nodup
  movesGood : movesOf st.entries = ms
  createsGood : createsOf st.entries = st.createdDirs
  statusGood : ∀ e ∈ st.entries, entryStatus e = "success"
  cacheGood : ∀ kv ∈ st.cache, kv.2 ∈ destNames cfg

/-- The `undo` command: revert the file moves of the given history, then
remove the collected created directories (when any were collected). -/
def undoCommand (entries : List HEntry) (fs : FS) : FS × Nat × Nat × Nat :=
  let acc := undoFiles entries fs
  if acc.dirsPath = [] then (acc.fs, acc.movedBackCount, 0, acc.errorsCount)
  else
    let r := removeDirsOfList false acc.dirsPath acc.fs
    (r.1, acc.movedBackCount, r.2.1, acc.errorsCount + r.2.2)

/-- A non-dry-run organize of one directory followed by the undo command
on the history the run produced (`none` when the run aborted on a fatal
configuration error). -/
def organizeThenUndo (cfg : FileCategories) (sizes : FPath → Nat)
    (cands : List FPath) (fs₀ : FS) : Option FS :=
  match organizeRun cfg sizes false true true cands fs₀ with
  | .error _ => none
  | .ok st => some (undoCommand st.entries st.fs).1

/-! ### Fixtures for the concrete evaluations -/

/-- A rule set with one category `Videos` over `.mp4`, split into the
variants `Small` (0–10 MB) and `Large` (10 MB–∞). -/
def cfgVideos : FileCategories :=
  ⟨[⟨"Videos", [".mp4"],
    [⟨some "Small", some 0, some 10⟩, ⟨some "Large", some 10, none⟩]⟩], "Other"⟩

/-- A rule set with one category `Images` over the lowercase `.jpg`. -/
def cfgImages : FileCategories := ⟨[⟨"Images", [".jpg"], []⟩], "Other"⟩

/-- A rule set with one category `Docs` over `.pdf`. -/
def cfgDocs : FileCategories := ⟨[⟨"Docs", [".pdf"], []⟩], "Other"⟩

/-- A directory `d` holding a regular file named `Docs` (the name of the
`.pdf` category) next to `x.pdf`. -/
def fsDocsFile : FS := ⟨{["d", "Docs"], ["d", "x.pdf"]}, {[], ["d"]}⟩

/-- A directory `d` holding the single file `a.pdf`. -/
def fsOnePdf : FS := ⟨{["d", "a.pdf"]}, {[], ["d"]}⟩

/-- Twenty-five distinct suffixes, one per category of `cfg25`. -/
def suffixes25 : List String :=
  [".e01", ".e02", ".e03", ".e04", ".e05", ".e06", ".e07", ".e08", ".e09",
   ".e10", ".e11", ".e12", ".e13", ".e14", ".e15", ".e16", ".e17", ".e18",
   ".e19", ".e20", ".e21", ".e22", ".e23", ".e24", ".e25"]

/-- Twenty-five single-extension categories: organizing one file of each
suffix produces exactly 25 `create_dir` plus 25 `move_file` entries. -/
def cfg25 : FileCategories :=
  ⟨suffixes25.map (fun s => ⟨"C" ++ s, [s], []⟩), "Other"⟩

/-- One candidate file per suffix of `suffixes25`, all in directory `d`. -/
def cands25 : List FPath := suffixes25.map (fun s => ["d", "f" ++ s])

/-- The initial filesystem for the 50-entry run. -/
def fs25 : FS := ⟨cands25.toFinset, {[], ["d"]}⟩

/-- The state reached inside `organizeStep`'s main branch (cache updated,
destination directory handled, file moved), before the batch-flush check. -/
def orgMainSt3 (st : OrgState) (cache2 : RuleCache)
    (d : FPath) (dest nm : String) : OrgState :=
  moveFileStep false (createDirStep false { st with cache := cache2 } (d ++ [dest]))
    (d ++ [nm]) (d ++ [dest]) nm

/-! ### Supporting lemmas -/

/-- `pathlib` splits a name into stem and suffix without losing characters. -/
theorem pyStem_append_pySuffix (name : String) :
    pyStem name ++ pySuffix name = name := by
  apply String.ext
  rw [String.data_append]
  unfold pyStem pySuffix
  cases h : lastDotIdx name.data with
  | none => simp
  | some i =>
      by_cases hi : 0 < i ∧ i < name.data.length - 1
      · simp only [if_pos hi]
        exact List.take_append_drop i name.data
      · have hi2 : ¬(0 < i ∧ i < name.length - 1) := hi
        simp [if_neg hi2]

theorem decCharVal_decChar {d : Nat} (hd : d < 10) : decCharVal (decChar d) = d := by
  interval_cases d <;> rfl

theorem mapDecChar_inj {l₁ l₂ : List Nat} (h₁ : ∀ d ∈ l₁, d < 10) (h₂ : ∀ d ∈ l₂, d < 10)
    (h : l₁.map decChar = l₂.map decChar) : l₁ = l₂ := by
  have e : ∀ l : List Nat, (∀ d ∈ l, d < 10) → (l.map decChar).map decCharVal = l := by
    intro l hl
    rw [List.map_map]
    have h' : l.map (decCharVal ∘ decChar) = l.map id :=
      List.map_congr_left (fun d hdm => by
        simp [Function.comp, decCharVal_decChar (hl d hdm)])
    simpa using h'
  have h2 := congrArg (List.map decCharVal) h
  rwa [e l₁ h₁, e l₂ h₂] at h2

theorem digits_bounded (n : Nat) : ∀ d ∈ (Nat.digits 10 n).reverse, d < 10 := by
  intro d hd
  exact Nat.digits_lt_base (by norm_num) (List.mem_reverse.mp hd)

theorem natRepr_ne_zero_str {b : Nat} (hb : b ≠ 0) : natRepr b ≠ "0" := by
  intro hcontra
  unfold natRepr at hcontra
  rw [if_neg hb] at hcontra
  have hd : (Nat.digits 10 b).reverse.map decChar = [0].map decChar := by
    have := congrArg String.data hcontra
    simpa using this
  have := mapDecChar_inj (digits_bounded b) (by intro d hd; simp at hd; omega) hd
  have hrev : Nat.digits 10 b = [0] := by
    have h2 := congrArg List.reverse this
    simpa using h2
  have : b = 0 := by
    have := Nat.ofDigits_digits 10 b
    rw [hrev] at this
    simpa [Nat.ofDigits] using this.symm
  exact hb this

theorem natRepr_injective : Function.Injective natRepr := by
  intro a b hab
  by_cases ha : a = 0 <;> by_cases hb : b = 0
  · omega
  · exfalso
    apply natRepr_ne_zero_str hb
    rw [← hab, ha]
    rfl
  · exfalso
    apply natRepr_ne_zero_str ha
    rw [hab, hb]
    rfl
  · unfold natRepr at hab
    rw [if_neg ha, if_neg hb] at hab
    have hmap : (Nat.digits 10 a).reverse.map decChar =
        (Nat.digits 10 b).reverse.map decChar := by
      have := congrArg String.data hab
      simpa using this
    have hdig : Nat.digits 10 a = Nat.digits 10 b := by
      have h1 := mapDecChar_inj (digits_bounded a) (digits_bounded b) hmap
      exact List.reverse_injective h1
    calc a = Nat.ofDigits 10 (Nat.digits 10 a) := (Nat.ofDigits_digits 10 a).symm
      _ = Nat.ofDigits 10 (Nat.digits 10 b) := by rw [hdig]
      _ = b := Nat.ofDigits_digits 10 b

theorem mbLeSize_iff (q : ℚ) (b : Nat) : mbLeSize q b = true ↔ q ≤ formatSizeToMb b := by
  unfold mbLeSize formatSizeToMb
  rw [decide_eq_true_eq]
  rw [le_div_iff₀ (show (0:ℚ) < 1000000 by norm_num)]
  have hden : (0:ℚ) < (q.den : ℚ) := by exact_mod_cast q.pos
  constructor
  · intro h
    have h2 : (q.num : ℚ) * 1000000 ≤ (b : ℚ) * (q.den : ℚ) := by exact_mod_cast h
    rw [← div_le_iff₀ hden, ← div_mul_eq_mul_div, Rat.num_div_den q] at h2
    exact h2
  · intro h
    have h2 : (q.num / q.den : ℚ) * 1000000 ≤ (b : ℚ) := by rw [Rat.num_div_den q]; exact h
    rw [div_mul_eq_mul_div, div_le_iff₀ hden] at h2
    exact_mod_cast h2

theorem sizeLtMb_iff (b : Nat) (q : ℚ) : sizeLtMb b q = true ↔ formatSizeToMb b < q := by
  unfold sizeLtMb formatSizeToMb
  rw [decide_eq_true_eq]
  rw [div_lt_iff₀ (show (0:ℚ) < 1000000 by norm_num)]
  have hden : (0:ℚ) < (q.den : ℚ) := by exact_mod_cast q.pos
  constructor
  · intro h
    have h2 : (b : ℚ) * (q.den : ℚ) < (q.num : ℚ) * 1000000 := by exact_mod_cast h
    rw [← lt_div_iff₀ hden, ← div_mul_eq_mul_div, Rat.num_div_den q] at h2
    exact h2
  · intro h
    have h2 : (b : ℚ) < (q.num / q.den : ℚ) * 1000000 := by rw [Rat.num_div_den q]; exact h
    rw [div_mul_eq_mul_div, lt_div_iff₀ hden] at h2
    exact_mod_cast h2

theorem collisionName_injective (stem sfx : String) :
    Function.Injective (collisionName stem sfx) := by
  intro j k h
  unfold collisionName at h
  apply natRepr_injective
  apply String.ext
  have hd := congrArg String.data h
  simp only [String.data_append] at hd
  have h1 := List.append_cancel_right hd
  exact List.append_cancel_left h1

theorem chooseTargetAux_shape (fs : FS) (destPath : FPath) (stem sfx : String)
    (fuel k : Nat) :
    ∃ n, chooseTargetAux fs destPath stem sfx fuel k = destPath ++ [n] := by
  induction fuel generalizing k with
  | zero => exact ⟨collisionName stem sfx k, rfl⟩
  | succ fuel ih =>
      unfold chooseTargetAux
      by_cases h : pathExistsIn fs (destPath ++ [collisionName stem sfx k])
      · simpa [h] using ih (k + 1)
      · exact ⟨collisionName stem sfx k, by simp [h]⟩

/-- The selected target is always of the form `destination_path / n`. -/
theorem chooseTarget_shape (fs : FS) (destPath : FPath) (name : String) :
    ∃ n, chooseTarget fs destPath name = destPath ++ [n] := by
  unfold chooseTarget
  by_cases h : pathExistsIn fs (destPath ++ [name])
  · simpa [h] using chooseTargetAux_shape fs destPath (pyStem name) (pySuffix name) _ 1
  · exact ⟨name, by simp [h]⟩

theorem chooseTargetAux_free (fs : FS) (destPath : FPath) (stem sfx : String) :
    ∀ (fuel k : Nat) (S : Finset FPath),
      (∀ j, k ≤ j → pathExistsIn fs (destPath ++ [collisionName stem sfx j]) →
        destPath ++ [collisionName stem sfx j] ∈ S) →
      S.card < fuel →
      ¬ pathExistsIn fs (chooseTargetAux fs destPath stem sfx fuel k) := by
  intro fuel
  induction fuel with
  | zero => intro k S _ hcard; exact absurd hcard (Nat.not_lt_zero _)
  | succ fuel ih =>
      intro k S hS hcard
      unfold chooseTargetAux
      by_cases h : pathExistsIn fs (destPath ++ [collisionName stem sfx k])
      · simp only [h, if_pos]
        have hmem : destPath ++ [collisionName stem sfx k] ∈ S := hS k le_rfl h
        apply ih (k + 1) (S.erase (destPath ++ [collisionName stem sfx k]))
        · intro j hj hex
          rw [Finset.mem_erase]
          refine ⟨?_, hS j (by omega) hex⟩
          intro heq
          have hn : collisionName stem sfx j = collisionName stem sfx k := by
            have := List.append_cancel_left heq
            simpa using this
          have := collisionName_injective stem sfx hn
          omega
        · have h1 := Finset.card_erase_of_mem hmem
          have h2 : 0 < S.card := Finset.card_pos.mpr ⟨_, hmem⟩
          omega
      · simp [h]

/-- The collision loop of `_move_file` always lands on a path that does
not currently exist. -/
theorem chooseTarget_free (fs : FS) (destPath : FPath) (name : String) :
    ¬ pathExistsIn fs (chooseTarget fs destPath name) := by
  unfold chooseTarget
  by_cases h : pathExistsIn fs (destPath ++ [name])
  · simp only [h, if_pos]
    apply chooseTargetAux_free fs destPath (pyStem name) (pySuffix name) _ 1
      (fs.files ∪ fs.dirs)
    · intro j _ hex
      rcases hex with hf | hd
      · exact Finset.mem_union_left _ hf
      · exact Finset.mem_union_right _ hd
    · have := Finset.card_union_le fs.files fs.dirs
      omega
  · simp [h]

theorem findCategoryFrom_eq_find (cats : List Category) (dn suffix : String)
    (bytes : Nat) :
    findCategoryFrom cats dn suffix bytes =
      (match cats.find? (fun c => decide (suffix ∈ c.extensions)) with
       | none => .ok dn
       | some c => (matchVariant c.variants bytes).map (fun pre => pre ++ c.cname)) := by
  induction cats with
  | nil => rfl
  | cons c rest ih =>
      unfold findCategoryFrom
      by_cases h : suffix ∈ c.extensions
      · rw [if_pos h, List.find?_cons_of_pos _ (by simpa using h)]
      · rw [if_neg h, List.find?_cons_of_neg _ (by simpa using h), ih]

/-! ### Claim theorems -/

/-- C1.  The claim states that the memoization cache of
`_categorize_file`, keyed by the matched variant's size band, never yields
a different destination than a cache-free scan, so that every `.mp4` file
in the `Large` band maps to `"Large-Videos"`.  The code instead caches
under the never-updated local bounds `(0, float("inf"))`: after a 5 MB
`.mp4` file is categorized as `"Small-Videos"`, a 20 MB `.mp4` file hits
that cache entry and is also sent to `"Small-Videos"`, while the rule scan
itself yields `"Large-Videos"`.  This evaluates the code at the failing
input. -/
theorem c1_cache_band_bug :
    categorizeFile cfgVideos [] ".mp4" 5000000 =
      .ok ("Small-Videos", [((".mp4", 0, none), "Small-Videos")]) ∧
    categorizeFile cfgVideos [((".mp4", 0, none), "Small-Videos")] ".mp4" 20000000 =
      .ok ("Small-Videos", [((".mp4", 0, none), "Small-Videos")]) ∧
    findCategory cfgVideos ".mp4" 20000000 = .ok "Large-Videos" ∧
    formatSizeToMb 5000000 = 5 ∧ formatSizeToMb 20000000 = 20 :=
  ⟨by decide, by decide, by decide,
   by norm_num [formatSizeToMb], by norm_num [formatSizeToMb]⟩

/-- C6, counterexample.  The claim states that matching uses the file's
lowercase suffix, so `.JPG` and `.jpg` land in the same category.  The
matcher compares `file.suffix` verbatim: with `.jpg` configured under
`Images`, a `.jpg` file goes to `Images` while a `.JPG` file falls through
to the default `Other`. -/
theorem c6_case_sensitivity_counterexample :
    findCategory cfgImages ".jpg" 2000000 = .ok "Images" ∧
    findCategory cfgImages ".JPG" 2000000 = .ok "Other" ∧
    ("Images" : String) ≠ "Other" :=
  ⟨by decide, by decide, by decide⟩

/-- C6, amended.  Category selection is a size-independent pre-filter over
the categories in declaration order: the first category whose extension
list contains the file's suffix **verbatim** (case-sensitively) is
selected, the variants of that category alone determine the name prefix,
and the default name applies when no category matches. -/
theorem c6_verbatim_first_match (cfg : FileCategories) (suffix : String)
    (bytes : Nat) :
    findCategory cfg suffix bytes =
      (match cfg.categories.find? (fun c => decide (suffix ∈ c.extensions)) with
       | none => .ok cfg.defaultName
       | some c => (matchVariant c.variants bytes).map (fun pre => pre ++ c.cname)) :=
  findCategoryFrom_eq_find cfg.categories cfg.defaultName suffix bytes

/-- C4, counterexample.  The claim states that `force` keeps the basic
existence/permission checks: a nonexistent path should still be rejected.
The function checks `force` first and returns `True` immediately, so with
`force` set and every probe failing it still validates. -/
theorem c4_force_counterexample :
    validateDirectoryAccess true false false false false = true := by decide

/-- C4, amended.  `validate_directory_access` with `force=True` returns
`True` immediately, bypassing the existence, directory, permission *and*
allow-list checks alike; without `force` it returns `True` exactly when
all four probes pass, in that order. -/
theorem c4_force_bypasses_all :
    (∀ pe pd pa pal, validateDirectoryAccess true pe pd pa pal = true) ∧
    (∀ pe pd pa pal, validateDirectoryAccess false pe pd pa pal = (pe && pd && pa && pal)) := by
  constructor
  · intro pe pd pa pal; rfl
  · intro pe pd pa pal
    cases pe <;> cases pd <;> cases pa <;> cases pal <;> rfl

/-- C7.  During undo, a `move_file` entry is replayed (renaming the logged
`source` back to the logged `destination`) exactly when its status is
`"success"`, the source still exists and the destination does not; in
every other case the entry leaves the filesystem untouched, and no replay
ever displaces an existing file other than the replayed source path — in
particular an existing destination is never overwritten. -/
theorem c7_undo_replay_guard (acc : UndoAcc) (s d : FPath) (onm st : String) :
    (st = "success" ∧ pathExistsIn acc.fs s ∧ ¬ pathExistsIn acc.fs d →
      undoStep acc (.moveFile s d onm st) =
        { acc with fs := ⟨insert d (acc.fs.files.erase s), acc.fs.dirs⟩,
                   movedBackCount := acc.movedBackCount + 1 }) ∧
    (¬ (st = "success" ∧ pathExistsIn acc.fs s ∧ ¬ pathExistsIn acc.fs d) →
      undoStep acc (.moveFile s d onm st) = acc) ∧
    (∀ p, p ∈ acc.fs.files → p ≠ s →
      p ∈ (undoStep acc (.moveFile s d onm st)).fs.files) := by
  refine ⟨?_, ?_, ?_⟩
  · rintro ⟨h1, h2, h3⟩
    unfold undoStep
    rw [if_neg (by simp [entryStatus, h1])]
    show (if ¬ pathExistsIn acc.fs s then acc
          else if pathExistsIn acc.fs d then acc else _) = _
    rw [if_neg (not_not_intro h2), if_neg h3]
  · intro hng
    unfold undoStep
    by_cases h1 : st = "success"
    · rw [if_neg (by simp [entryStatus, h1])]
      show (if ¬ pathExistsIn acc.fs s then acc
            else if pathExistsIn acc.fs d then acc else _) = _
      by_cases h2 : pathExistsIn acc.fs s
      · rw [if_neg (not_not_intro h2)]
        by_cases h3 : pathExistsIn acc.fs d
        · rw [if_pos h3]
        · exact absurd ⟨h1, h2, h3⟩ hng
      · rw [if_pos h2]
    · rw [if_pos (by simp [entryStatus, h1])]
  · intro p hp hps
    unfold undoStep
    by_cases h1 : entryStatus (HEntry.moveFile s d onm st) ≠ "success"
    · rw [if_pos h1]; exact hp
    · rw [if_neg h1]
      show p ∈ (if ¬ pathExistsIn acc.fs s then acc
                else if pathExistsIn acc.fs d then acc else _).fs.files
      by_cases h2 : pathExistsIn acc.fs s
      · rw [if_neg (not_not_intro h2)]
        by_cases h3 : pathExistsIn acc.fs d
        · rw [if_pos h3]; exact hp
        · rw [if_neg h3]
          simp only [Finset.mem_insert, Finset.mem_erase]
          exact Or.inr ⟨hps, hp⟩
      · rw [if_pos h2]; exact hp

/-- C7, witness: a successful replay at a concrete state. -/
theorem c7_undo_replay_guard_witness :
    undoStep ⟨⟨{["a", "C", "x"]}, {[], ["a"], ["a", "C"]}⟩, 0, 0, []⟩
        (.moveFile ["a", "C", "x"] ["a", "x"] "x" "success") =
      { (⟨⟨{["a", "C", "x"]}, {[], ["a"], ["a", "C"]}⟩, 0, 0, []⟩ : UndoAcc) with
        fs := ⟨insert ["a", "x"] ((({["a", "C", "x"]}) : Finset FPath).erase ["a", "C", "x"]),
               {[], ["a"], ["a", "C"]}⟩,
        movedBackCount := 0 + 1 } :=
  (c7_undo_replay_guard ⟨⟨{["a", "C", "x"]}, {[], ["a"], ["a", "C"]}⟩, 0, 0, []⟩
      ["a", "C", "x"] ["a", "x"] "x" "success").1
    ⟨rfl, by decide, by decide⟩

theorem collectStamps_eq_none (names : List String) (n : String)
    (h1 : n ∈ names) (h2 : pySuffix n = ".json")
    (h3 : "history_".data.isPrefixOf n.data = true)
    (h4 : parseHistoryStamp (pyReplaceDel "history_" (pyStem n)) = none) :
    collectStamps names = none := by
  induction names with
  | nil => cases h1
  | cons m rest ih =>
      unfold collectStamps
      rcases List.mem_cons.mp h1 with rfl | hmem
      · rw [if_neg (by simp [h2]), if_neg (by simp [h3]), h4]
      · by_cases c1 : pySuffix m ≠ ".json"
        · rw [if_pos c1]; exact ih hmem
        · rw [if_neg c1]
          by_cases c2 : "history_".data.isPrefixOf m.data = true
          · rw [if_neg (by simp [c2])]
            cases hp : parseHistoryStamp (pyReplaceDel "history_" (pyStem m)) with
            | none => rfl
            | some ts => rw [ih hmem]; rfl
          · rw [if_pos (by simpa using c2)]; exact ih hmem

/-- C10.  If the logs directory holds any file whose name starts with
`history_` and carries the `.json` suffix but whose remaining stem fails
`%Y%m%d_%H%M%S` parsing, `get_last_history` propagates the uncaught
`ValueError` from `parse_history_file` instead of skipping the file or
reporting the recoverable no-history condition. -/
theorem c10_bad_stem_raises (names : List String) (n : String)
    (h1 : n ∈ names) (h2 : pySuffix n = ".json")
    (h3 : "history_".data.isPrefixOf n.data = true)
    (h4 : parseHistoryStamp (pyReplaceDel "history_" (pyStem n)) = none) :
    getLastHistory true names = .valueError := by
  unfold getLastHistory
  rw [if_neg (by simp), collectStamps_eq_none names n h1 h2 h3 h4]

/-- C10, witness: a logs directory containing only `history_abc.json`. -/
theorem c10_bad_stem_raises_witness :
    getLastHistory true ["history_abc.json"] = .valueError :=
  c10_bad_stem_raises ["history_abc.json"] "history_abc.json"
    (by decide) (by decide) (by decide) (by decide)

/-- C5, counterexample.  The claim states that `is_allowed` returns
`False` for the home directory *unless* it is explicitly allow-listed.
The code tests `abs_path == home_dir` before consulting the allow-list and
returns `False` unconditionally, so even an explicitly listed home
directory is refused. -/
theorem c5_home_allowlisted_counterexample :
    isAllowed [["home", "u"]] ["home", "u"] (some ["home", "u"]) = false ∧
    (["home", "u"] : FPath) ∈ [(["home", "u"] : FPath)] := by
  constructor
  · rfl
  · simp

/-- C5, amended.  `is_protected` is true for `/etc` (whenever the home
directory is a real non-root directory), true for `<home>/.ssh`, false
for `<home>/Documents` when no component of the home path is itself a
sensitive hidden name, and true on any resolution error; `is_allowed` is
false on a resolution error, false for the home directory itself **even
when the home directory is explicitly allow-listed**, true for any other
path nested under an allow-list entry, and false for paths under no
entry. -/
theorem c5_pathguard_amended :
    (∀ home : FPath, home ≠ [] → isProtected home (some ["etc"]) = true) ∧
    (∀ home : FPath, isProtected home (some (home ++ [".ssh"])) = true) ∧
    (∀ home : FPath, (∀ part ∈ home, part ∉ protectedHidden) →
      isProtected home (some (home ++ ["Documents"])) = false) ∧
    (∀ home : FPath, isProtected home none = true) ∧
    (∀ (al : List FPath) (home : FPath), isAllowed al home none = false) ∧
    (∀ (al : List FPath) (home : FPath), isAllowed al home (some home) = false) ∧
    (∀ (al : List FPath) (home p : FPath), p ≠ home → (∃ a ∈ al, a <+: p) →
      isAllowed al home (some p) = true) ∧
    (∀ (al : List FPath) (home p : FPath), (∀ a ∈ al, ¬ a <+: p) →
      isAllowed al home (some p) = false) := by
  refine ⟨?_, ?_, ?_, ?_, ?_, ?_, ?_, ?_⟩
  · intro home hne
    simp only [isProtected]
    by_cases hh : (["etc"] : FPath) = home
    · rw [if_pos hh]
    · rw [if_neg hh]
      by_cases hp : home.isPrefixOf ["etc"] = true
      · exfalso
        have h2 : home <+: ["etc"] := List.isPrefixOf_iff_prefix.mp hp
        obtain ⟨t, ht⟩ := h2
        cases home with
        | nil => exact hne rfl
        | cons a tl =>
            cases tl with
            | nil =>
                simp only [List.cons_append, List.nil_append, List.cons.injEq] at ht
                exact hh (by simp [ht.1])
            | cons b tl2 => simp at ht
      · rw [if_neg (by simpa using hp)]
        rfl
  · intro home
    simp only [isProtected]
    rw [if_neg (by simp)]
    rw [if_pos (List.isPrefixOf_iff_prefix.mpr (List.prefix_append home [".ssh"]))]
    have : (home ++ [".ssh"]).any (fun part => decide (part ∈ protectedHidden)) = true := by
      rw [List.any_eq_true]
      exact ⟨".ssh", by simp, by decide⟩
    exact this
  · intro home hclean
    simp only [isProtected]
    rw [if_neg (by simp)]
    rw [if_pos (List.isPrefixOf_iff_prefix.mpr (List.prefix_append home ["Documents"]))]
    have : (home ++ ["Documents"]).any (fun part => decide (part ∈ protectedHidden)) = false := by
      rw [List.any_eq_false]
      intro part hpart
      rcases List.mem_append.mp hpart with hh | hd
      · simpa using hclean part hh
      · simp only [List.mem_singleton] at hd
        subst hd
        decide
    exact this
  · intro home; rfl
  · intro al home; rfl
  · intro al home
    simp [isAllowed]
  · intro al home p hne ⟨a, ha, hpre⟩
    simp only [isAllowed]
    rw [if_neg hne]
    rw [List.any_eq_true]
    exact ⟨a, ha, List.isPrefixOf_iff_prefix.mpr hpre⟩
  · intro al home p hnone
    simp only [isAllowed]
    by_cases hh : p = home
    · rw [if_pos hh]
    · rw [if_neg hh]
      rw [List.any_eq_false]
      intro a ha
      simpa using fun hc => hnone a ha (List.isPrefixOf_iff_prefix.mp hc)

/-- C5, witness: the amended contract at concrete paths. -/
theorem c5_pathguard_amended_witness :
    isProtected ["home", "u"] (some ["etc"]) = true ∧
    isProtected ["home", "u"] (some (["home", "u"] ++ [".ssh"])) = true ∧
    isProtected ["home", "u"] (some (["home", "u"] ++ ["Documents"])) = false ∧
    isAllowed [["data"]] ["home", "u"] (some ["data", "pics"]) = true ∧
    isAllowed [["data"]] ["home", "u"] (some ["mnt", "pics"]) = false :=
  ⟨c5_pathguard_amended.1 ["home", "u"] (by decide),
   c5_pathguard_amended.2.1 ["home", "u"],
   c5_pathguard_amended.2.2.1 ["home", "u"] (by decide),
   c5_pathguard_amended.2.2.2.2.2.2.1 [["data"]] ["home", "u"] ["data", "pics"]
     (by decide) ⟨["data"], by decide, by decide⟩,
   c5_pathguard_amended.2.2.2.2.2.2.2 [["data"]] ["home", "u"] ["mnt", "pics"]
     (by decide)⟩

/-- C2, counterexample.  Directory `d` holds a regular file named `Docs`
(which falls to the default `Other`) and `x.pdf` (whose category is named
`Docs`).  With the enumeration order `[d/Docs, d/x.pdf]` — `Path.glob`
enumerates in unspecified directory order — organize moves the file
`Docs` to `d/Other/Docs` and then creates the directory `d/Docs` at the
file's now-vacated original path.  On undo, the logged destination
`d/Docs` of the first move exists (as the created directory), so that
move is skipped and never reverted: afterwards the original file `d/Docs`
is missing, `d/Other/Docs` is left behind, and the created directory
`d/Other` remains.  Organize-then-undo does not restore the original
file set. -/
theorem c2_restore_counterexample :
    (organizeThenUndo cfgDocs (fun _ => 0) [["d", "Docs"], ["d", "x.pdf"]] fsDocsFile).map
      (fun fs => (decide (["d", "Docs"] ∈ fs.files),
                  decide (["d", "Other", "Docs"] ∈ fs.files),
                  decide (["d", "Other"] ∈ fs.dirs))) = some (false, true, true) ∧
    (["d", "Docs"] : FPath) ∈ fsDocsFile.files ∧
    (["d", "Other", "Docs"] : FPath) ∉ fsDocsFile.files ∧
    (["d", "Other"] : FPath) ∉ fsDocsFile.dirs := by
  refine ⟨by decide, by decide, by decide, by decide⟩

/-- C8, counterexample.  Same directory as `c2_restore_counterexample`,
enumeration order `[d/x.pdf, d/Docs]`.  In the real run, moving `x.pdf`
into `d/Docs` fails (the destination path is occupied by a regular file,
so the directory is not created and the rename raises), which counts an
error and no move; the dry run counts a would-move for it and no error.
The reported counts differ between dry run and real run on identical
input. -/
theorem c8_counts_counterexample :
    (organizeRun cfgDocs (fun _ => 0) true true true [["d", "x.pdf"], ["d", "Docs"]] fsDocsFile).map
      (fun st => (st.movedFilesCount, st.createdDirCount, st.errorsCount)) = .ok (2, 1, 0) ∧
    (organizeRun cfgDocs (fun _ => 0) false true true [["d", "x.pdf"], ["d", "Docs"]] fsDocsFile).map
      (fun st => (st.movedFilesCount, st.createdDirCount, st.errorsCount)) = .ok (1, 1, 1) := by
  refine ⟨by decide, by decide⟩

set_option maxRecDepth 100000 in
/-- C3.  The claim states that whenever a non-dry-run organize finishes
its last directory having logged at least one entry, the closing `"\n]"`
is written — including when the entry count is an exact multiple of the
batch size 50.  Organizing 25 files of 25 distinct fresh categories logs
exactly 50 entries (25 `create_dir`, 25 `move_file`); the 50th entry
triggers the in-loop flush, which empties `batch_entries`, so the final
`if self.batch_entries` guard skips `_finalize_history` and no `"\n]"` is
ever written (first conjunct: 50 entries, empty batch, seal not written,
written text does not end in `]`).  A run logging 2 entries does get its
seal (second conjunct), confirming the slip is the exact-multiple case. -/
theorem c3_seal_skipped_at_batch_multiple :
    (organizeRun cfg25 (fun _ => 0) false true true cands25 fs25).map
      (fun st => (st.entries.length, st.batch.length, st.sealWritten, st.errorsCount,
                  decide (st.historyText.data.getLast? = some ']'))) =
      .ok (50, 0, false, 0, false) ∧
    (organizeRun cfgDocs (fun _ => 0) false true true [["d", "x1.pdf"]]
        ⟨{["d", "x1.pdf"]}, {[], ["d"]}⟩).map
      (fun st => (st.entries.length, st.sealWritten,
                  decide (st.historyText.data.getLast? = some ']'))) = .ok (2, true, true) ∧
    batchSize = 50 := by
  refine ⟨by decide, by decide, rfl⟩

theorem prefix_eq_of_length {l₁ l₂ : FPath} (h : l₁ <+: l₂)
    (hl : l₁.length = l₂.length) : l₁ = l₂ := by
  obtain ⟨t, ht⟩ := h
  have hlen := congrArg List.length ht
  rw [List.length_append] at hlen
  have ht0 : t = [] := List.length_eq_zero.mp (by omega)
  rw [ht0, List.append_nil] at ht
  exact ht

theorem removePathLoop_aux (fs : FS) (path : FPath) :
    ∀ (L : List FPath) (C : Finset FPath) (r : Nat),
      L.Nodup →
      (∀ p ∈ L, p ∈ fs.dirs ∧ ∃ n, p = path ++ [n]) →
      (∀ p ∈ L, p ∉ C) →
      (∀ c ∈ C, ∃ n, c = path ++ [n]) →
      L.foldl (removeOneDir false true) (⟨fs.files, fs.dirs \ C⟩, r, 0) =
        (⟨fs.files, fs.dirs \ (C ∪ (L.filter (fun p => decide (dirIsEmpty fs p))).toFinset)⟩,
          r + (L.filter (fun p => decide (dirIsEmpty fs p))).length, 0) := by
  intro L
  induction L with
  | nil => intro C r _ _ _ _; simp
  | cons p rest ih =>
      intro C r hnd hL hLC hC
      obtain ⟨hpd, np, hpshape⟩ := hL p (by simp)
      have hpC : p ∉ C := hLC p (by simp)
      have hex : pathExistsIn ⟨fs.files, fs.dirs \ C⟩ p :=
        Or.inr (Finset.mem_sdiff.mpr ⟨hpd, hpC⟩)
      have hemp : dirIsEmpty (⟨fs.files, fs.dirs \ C⟩ : FS) p ↔ dirIsEmpty fs p := by
        constructor
        · rintro ⟨hf, hd⟩
          refine ⟨hf, ?_⟩
          intro q hq hsb
          by_cases hqC : q ∈ C
          · obtain ⟨nq, hnq⟩ := hC q hqC
            obtain ⟨hpre, hne⟩ := hsb
            exact hne (prefix_eq_of_length hpre (by rw [hnq, hpshape]; simp))
          · exact hd q (Finset.mem_sdiff.mpr ⟨hq, hqC⟩) hsb
        · rintro ⟨hf, hd⟩
          exact ⟨hf, fun q hq hsb => hd q (Finset.mem_sdiff.mp hq).1 hsb⟩
      rw [List.foldl_cons]
      have hndr : rest.Nodup := (List.nodup_cons.mp hnd).2
      have hpr : p ∉ rest := (List.nodup_cons.mp hnd).1
      by_cases he : dirIsEmpty fs p
      · have hstep : removeOneDir false true (⟨fs.files, fs.dirs \ C⟩, r, 0) p =
            (⟨fs.files, fs.dirs \ insert p C⟩, r + 1, 0) := by
          unfold removeOneDir
          rw [if_neg (not_not_intro hex), if_pos rfl,
            if_pos ⟨Finset.mem_sdiff.mpr ⟨hpd, hpC⟩, hemp.mpr he⟩]
          have : (fs.dirs \ C).erase p = fs.dirs \ insert p C := by
            ext q
            simp only [Finset.mem_erase, Finset.mem_sdiff, Finset.mem_insert]
            tauto
          rw [this]
        rw [hstep, ih (insert p C) (r + 1) hndr
          (fun q hq => hL q (by simp [hq]))
          (fun q hq => by
            rw [Finset.mem_insert]
            push_neg
            exact ⟨fun hc => hpr (hc ▸ hq), hLC q (by simp [hq])⟩)
          (fun c hc => by
            rcases Finset.mem_insert.mp hc with rfl | hcC
            · exact ⟨np, hpshape⟩
            · exact hC c hcC)]
        rw [List.filter_cons_of_pos (by simpa using he)]
        simp only [Prod.mk.injEq, FS.mk.injEq, true_and, List.toFinset_cons,
          List.length_cons]
        refine ⟨?_, by omega, trivial⟩
        congr 1
        ext q
        simp only [Finset.mem_union, Finset.mem_insert]
        tauto
      · have hstep : removeOneDir false true (⟨fs.files, fs.dirs \ C⟩, r, 0) p =
            (⟨fs.files, fs.dirs \ C⟩, r, 0) := by
          unfold removeOneDir
          rw [if_neg (not_not_intro hex), if_pos rfl,
            if_neg (fun hc => he (hemp.mp hc.2)), if_pos rfl]
        rw [hstep, ih C r hndr (fun q hq => hL q (by simp [hq]))
          (fun q hq => hLC q (by simp [hq])) hC]
        rw [List.filter_cons_of_neg (by simpa using he)]

/-- C9.  After organizing a directory, the non-dry-run cleanup pass
(`remove_dirs(path=…)`) removes exactly the empty immediate
subdirectories of the organized directory — including empty directories
that existed before the run and were not created by it — leaves the files
and all other directories in place, and, because this mode sets
`skip_os_errors`, counts no removal failure (`OSError`) as an error. -/
theorem c9_cleanup_removes_empty_subdirs (fs : FS) (path : FPath)
    (subs : List FPath) (hsubs : enumeratesSubdirs fs path subs) :
    (removeDirsOfPath false subs fs).1.files = fs.files ∧
    (removeDirsOfPath false subs fs).1.dirs =
      fs.dirs \ (subs.filter (fun p => decide (dirIsEmpty fs p))).toFinset ∧
    (∀ q ∈ subs, dirIsEmpty fs q → q ∉ (removeDirsOfPath false subs fs).1.dirs) ∧
    (removeDirsOfPath false subs fs).2.2 = 0 ∧
    (removeDirsOfPath false subs fs).2.1 =
      (subs.filter (fun p => decide (dirIsEmpty fs p))).length := by
  obtain ⟨hnd, hch⟩ := hsubs
  have hstart : (⟨fs.files, fs.dirs \ ∅⟩ : FS) = fs := by
    cases fs
    simp
  have base := removePathLoop_aux fs path subs.reverse ∅ 0 (by simpa using hnd)
    (fun p hp => (hch p).mp (List.mem_reverse.mp hp)) (by simp) (by simp)
  rw [hstart] at base
  have hres : removeDirsOfPath false subs fs =
      (⟨fs.files, fs.dirs \ (subs.filter (fun p => decide (dirIsEmpty fs p))).toFinset⟩,
        (subs.filter (fun p => decide (dirIsEmpty fs p))).length, 0) := by
    unfold removeDirsOfPath removeDirsLoop
    rw [base]
    simp [List.filter_reverse]
  rw [hres]
  refine ⟨rfl, rfl, ?_, rfl, rfl⟩
  intro q hq hqe
  simp only [Finset.mem_sdiff, List.mem_toFinset, List.mem_filter, not_and, not_not]
  intro _ hc
  exact hc hq (decide_eq_true hqe)

/-- C9, witness: `d` contains a non-empty subdirectory `A` and an empty
pre-existing subdirectory `B`; the cleanup removes exactly `B` with no
error counted. -/
theorem c9_cleanup_removes_empty_subdirs_witness :
    (removeDirsOfPath false [["d", "A"], ["d", "B"]]
        ⟨{["d", "A", "f"]}, {[], ["d"], ["d", "A"], ["d", "B"]}⟩).1.files =
      ({["d", "A", "f"]} : Finset FPath) ∧
    (∀ q ∈ [(["d", "A"] : FPath), ["d", "B"]],
      dirIsEmpty ⟨{["d", "A", "f"]}, {[], ["d"], ["d", "A"], ["d", "B"]}⟩ q →
      q ∉ (removeDirsOfPath false [["d", "A"], ["d", "B"]]
        ⟨{["d", "A", "f"]}, {[], ["d"], ["d", "A"], ["d", "B"]}⟩).1.dirs) ∧
    (removeDirsOfPath false [["d", "A"], ["d", "B"]]
        ⟨{["d", "A", "f"]}, {[], ["d"], ["d", "A"], ["d", "B"]}⟩).2.2 = 0 := by
  have h := c9_cleanup_removes_empty_subdirs
    ⟨{["d", "A", "f"]}, {[], ["d"], ["d", "A"], ["d", "B"]}⟩ ["d"]
    [["d", "A"], ["d", "B"]] ?_
  · exact ⟨h.1, h.2.2.1, h.2.2.2.1⟩
  · refine ⟨by decide, ?_⟩
    intro q
    constructor
    · intro hq
      rcases List.mem_cons.mp hq with rfl | hq2
      · exact ⟨by decide, "A", rfl⟩
      · rcases List.mem_cons.mp hq2 with rfl | hq3
        · exact ⟨by decide, "B", rfl⟩
        · cases hq3
    · rintro ⟨hdirs, n, rfl⟩
      have h2 : n = "A" ∨ n = "B" := by
        have h3 : (["d", n] : FPath) ∈
            ({[], ["d"], ["d", "A"], ["d", "B"]} : Finset FPath) := hdirs
        simp only [Finset.mem_insert, Finset.mem_singleton] at h3
        rcases h3 with h4 | h4 | h4 | h4
        · cases h4
        · cases h4
        · simp only [List.cons.injEq] at h4
          exact Or.inl h4.2.1
        · simp only [List.cons.injEq] at h4
          exact Or.inr h4.2.1
      rcases h2 with rfl | rfl
      · simp
      · simp

theorem matchVariant_ok_shape (variants : List SizeVariant) (bytes : Nat)
    (pre : String) (h : matchVariant variants bytes = .ok pre) :
    pre = "" ∨ ∃ v ∈ variants, ∃ n, v.vname = some n ∧ pre = n ++ "-" := by
  induction variants with
  | nil =>
      unfold matchVariant at h
      cases h
      exact Or.inl rfl
  | cons v rest ih =>
      unfold matchVariant at h
      by_cases hb : (mbLeSize (v.minSizeMb.getD 0) bytes &&
          (match v.maxSizeMb with
           | none => true
           | some mx => sizeLtMb bytes mx)) = true
      · rw [if_pos hb] at h
        cases hv : v.vname with
        | none => rw [hv] at h; cases h
        | some n =>
            rw [hv] at h
            cases h
            exact Or.inr ⟨v, by simp, n, hv, rfl⟩
      · rw [if_neg hb] at h
        rcases ih h with h1 | ⟨v2, hv2, n, hn, hp⟩
        · exact Or.inl h1
        · exact Or.inr ⟨v2, by simp [hv2], n, hn, hp⟩

theorem findCategory_mem_destNames (cfg : FileCategories) (suffix : String)
    (bytes : Nat) (s : String) (h : findCategory cfg suffix bytes = .ok s) :
    s ∈ destNames cfg := by
  unfold findCategory at h
  unfold destNames
  have main : ∀ cats : List Category,
      findCategoryFrom cats cfg.defaultName suffix bytes = .ok s →
      s = cfg.defaultName ∨ ∃ c ∈ cats, s = c.cname ∨
        ∃ v ∈ c.variants, ∃ n, v.vname = some n ∧ s = n ++ "-" ++ c.cname := by
    intro cats
    induction cats with
    | nil =>
        intro hh
        unfold findCategoryFrom at hh
        cases hh
        exact Or.inl rfl
    | cons c rest ih =>
        intro hh
        unfold findCategoryFrom at hh
        by_cases hmem : suffix ∈ c.extensions
        · rw [if_pos hmem] at hh
          cases hmv : matchVariant c.variants bytes with
          | error e => rw [hmv] at hh; cases hh
          | ok pre =>
              rw [hmv] at hh
              simp only [Except.map] at hh
              cases hh
              rcases matchVariant_ok_shape c.variants bytes pre hmv with rfl | ⟨v, hv, n, hn, rfl⟩
              · exact Or.inr ⟨c, by simp, Or.inl (by simp)⟩
              · exact Or.inr ⟨c, by simp, Or.inr ⟨v, hv, n, hn, by
                  rw [String.append_assoc]⟩⟩
        · rw [if_neg hmem] at hh
          rcases ih hh with h1 | ⟨c2, hc2, hrest⟩
          · exact Or.inl h1
          · exact Or.inr ⟨c2, by simp [hc2], hrest⟩
  rcases main cfg.categories h with rfl | ⟨c, hc, hs⟩
  · simp
  · rcases hs with rfl | ⟨v, hv, n, hn, rfl⟩
    · refine List.mem_cons_of_mem _ (List.mem_flatMap.mpr ⟨c, hc, by simp⟩)
    · refine List.mem_cons_of_mem _ (List.mem_flatMap.mpr ⟨c, hc, ?_⟩)
      refine List.mem_cons_of_mem _ (List.mem_filterMap.mpr ⟨v, hv, ?_⟩)
      rw [hn]
      rfl

theorem string_append_dash_ne_empty (a b : String) : a ++ "-" ++ b ≠ "" := by
  intro hc
  have := congrArg String.data hc
  simp [String.data_append] at this

theorem destNames_all_nonempty (cfg : FileCategories) (hcfg : CfgWF cfg) :
    ∀ s ∈ destNames cfg, s ≠ "" := by
  intro s hs
  unfold destNames at hs
  rcases List.mem_cons.mp hs with rfl | hs2
  · exact hcfg.defaultNe
  · obtain ⟨c, hc, hsc⟩ := List.mem_flatMap.mp hs2
    rcases List.mem_cons.mp hsc with rfl | hs3
    · exact hcfg.catNe c hc
    · obtain ⟨v, _, hv⟩ := List.mem_filterMap.mp hs3
      cases hvn : v.vname with
      | none => rw [hvn] at hv; cases hv
      | some n =>
          rw [hvn] at hv
          cases hv
          exact string_append_dash_ne_empty n c.cname

theorem checkCache_val_mem (cache : RuleCache) (suffix : String) (bytes : Nat)
    (h : checkCache cache suffix bytes ≠ "") :
    ∃ kv ∈ cache, kv.2 = checkCache cache suffix bytes := by
  induction cache with
  | nil => exact absurd rfl h
  | cons kv rest ih =>
      unfold checkCache at h
      unfold checkCache
      rcases kv with ⟨⟨sfx, mn, mx⟩, dst⟩
      by_cases hc : sfx = suffix ∧ cacheBandHit mn mx bytes = true
      · rw [if_pos hc] at h
        rw [if_pos hc]
        exact ⟨((sfx, mn, mx), dst), by simp, rfl⟩
      · rw [if_neg hc] at h
        rw [if_neg hc]
        obtain ⟨kv2, hkv2, hval⟩ := ih h
        exact ⟨kv2, by simp [hkv2], hval⟩

theorem cacheInsert_val_mem (cache : RuleCache) (k : CacheKey) (v : String) :
    ∀ kv ∈ cacheInsert cache k v, kv.2 = v ∨ ∃ kv2 ∈ cache, kv.2 = kv2.2 := by
  intro kv hkv
  unfold cacheInsert at hkv
  by_cases hany : cache.any (fun kv2 => kv2.1 = k) = true
  · rw [if_pos hany] at hkv
    obtain ⟨kv2, hkv2, hmap⟩ := List.mem_map.mp hkv
    by_cases hk : kv2.1 = k
    · rw [if_pos hk] at hmap
      exact Or.inl (by rw [← hmap])
    · rw [if_neg hk] at hmap
      exact Or.inr ⟨kv2, hkv2, by rw [← hmap]⟩
  · rw [if_neg hany] at hkv
    rcases List.mem_append.mp hkv with hmem | hmem
    · exact Or.inr ⟨kv, hmem, rfl⟩
    · simp only [List.mem_singleton] at hmem
      subst hmem
      exact Or.inl rfl

theorem categorizeFile_props (cfg : FileCategories) (cache cache2 : RuleCache)
    (suffix : String) (bytes : Nat) (dest : String) (hcfg : CfgWF cfg)
    (hcache : ∀ kv ∈ cache, kv.2 ∈ destNames cfg)
    (h : categorizeFile cfg cache suffix bytes = .ok (dest, cache2)) :
    dest ∈ destNames cfg ∧ dest ≠ "" ∧ ∀ kv ∈ cache2, kv.2 ∈ destNames cfg := by
  unfold categorizeFile at h
  by_cases hhit : checkCache cache suffix bytes ≠ ""
  · rw [if_pos hhit] at h
    cases h
    obtain ⟨kv, hkv, hval⟩ := checkCache_val_mem cache suffix bytes hhit
    exact ⟨hval ▸ hcache kv hkv, hhit, hcache⟩
  · rw [if_neg hhit] at h
    cases hfc : findCategory cfg suffix bytes with
    | error e => rw [hfc] at h; cases h
    | ok s =>
        rw [hfc] at h
        cases h
        have hmem := findCategory_mem_destNames cfg suffix bytes dest hfc
        refine ⟨hmem, destNames_all_nonempty cfg hcfg dest hmem, ?_⟩
        intro kv hkv
        rcases cacheInsert_val_mem cache (suffix, 0, none) dest kv hkv with hv | ⟨kv2, hkv2, hv⟩
        · rw [hv]; exact hmem
        · rw [hv]; exact hcache kv2 hkv2

theorem target_len_of_mem {d : FPath} {ms : List (FPath × FPath)} {x : FPath}
    (hlen : ∀ m ∈ ms, m.2.length = d.length + 2)
    (hx : x ∈ (ms.map Prod.snd).toFinset) : x.length = d.length + 2 := by
  obtain ⟨m, hm, rfl⟩ := List.mem_map.mp (List.mem_toFinset.mp hx)
  exact hlen m hm

theorem orig_len_of_mem {d : FPath} {ms : List (FPath × FPath)} {x : FPath}
    (hshape : ∀ m ∈ ms, ∃ n, m.1 = d ++ [n])
    (hx : x ∈ (ms.map Prod.fst).toFinset) : x.length = d.length + 1 := by
  obtain ⟨m, hm, rfl⟩ := List.mem_map.mp (List.mem_toFinset.mp hx)
  obtain ⟨n, hn⟩ := hshape m hm
  rw [hn]
  simp

theorem files_update_eq {files₀ O T : Finset FPath} {f t : FPath}
    (hfT : f ∉ T) :
    insert t (((files₀ \ O) ∪ T).erase f) = (files₀ \ insert f O) ∪ insert t T := by
  ext x
  simp only [Finset.mem_insert, Finset.mem_erase, Finset.mem_union, Finset.mem_sdiff]
  constructor
  · rintro (rfl | ⟨hxf, (⟨hx1, hx2⟩ | hxT)⟩)
    · exact Or.inr (Or.inl rfl)
    · exact Or.inl ⟨hx1, fun hc => hc.elim hxf hx2⟩
    · exact Or.inr (Or.inr hxT)
  · rintro (⟨hx1, hx2⟩ | (rfl | hxT))
    · push_neg at hx2
      exact Or.inr ⟨hx2.1, Or.inl ⟨hx1, hx2.2⟩⟩
    · exact Or.inl rfl
    · exact Or.inr ⟨fun hc => hfT (hc ▸ hxT), Or.inr hxT⟩

theorem undo_step_files_eq {files : Finset FPath} {T O : Finset FPath} {s dd : FPath}
    (hddT : dd ∉ T) :
    (files \ insert s T) ∪ insert dd O =
      ((insert dd (files.erase s)) \ T) ∪ O := by
  ext x
  simp only [Finset.mem_union, Finset.mem_sdiff, Finset.mem_insert, Finset.mem_erase]
  constructor
  · rintro (⟨hx1, hx2⟩ | (rfl | hxO))
    · push_neg at hx2
      exact Or.inl ⟨Or.inr ⟨hx2.1, hx1⟩, hx2.2⟩
    · exact Or.inl ⟨Or.inl rfl, hddT⟩
    · exact Or.inr hxO
  · rintro (⟨(rfl | ⟨hxs, hx1⟩), hx2⟩ | hxO)
    · exact Or.inr (Or.inl rfl)
    · exact Or.inl ⟨hx1, fun hc => hc.elim hxs hx2⟩
    · exact Or.inr (Or.inr hxO)

theorem restore_files_eq {files₀ O T : Finset FPath}
    (hO : O ⊆ files₀) (hT : ∀ x ∈ T, x ∉ files₀) :
    (((files₀ \ O) ∪ T) \ T) ∪ O = files₀ := by
  ext x
  simp only [Finset.mem_union, Finset.mem_sdiff]
  constructor
  · rintro (⟨(⟨hx1, _⟩ | hxT), hx2⟩ | hxO)
    · exact hx1
    · exact absurd hxT hx2
    · exact hO hxO
  · intro hx
    by_cases hxO : x ∈ O
    · exact Or.inr hxO
    · exact Or.inl ⟨Or.inl ⟨hx, hxO⟩, fun hc => hT x hc hx⟩

theorem undoFold_replay :
    ∀ (entries : List HEntry) (acc : UndoAcc),
      (∀ e ∈ entries, entryStatus e = "success") →
      (∀ m ∈ movesOf entries, m.2 ∈ acc.fs.files) →
      ((movesOf entries).map Prod.snd).Nodup →
      (∀ m ∈ movesOf entries, m.1 ∉ acc.fs.files ∧ m.1 ∉ acc.fs.dirs) →
      ((movesOf entries).map Prod.fst).Nodup →
      (entries.foldl undoStep acc).fs.files =
        (acc.fs.files \ ((movesOf entries).map Prod.snd).toFinset) ∪
          ((movesOf entries).map Prod.fst).toFinset ∧
      (entries.foldl undoStep acc).fs.dirs = acc.fs.dirs ∧
      (entries.foldl undoStep acc).dirsPath = acc.dirsPath ++ createsOf entries := by
  intro entries
  induction entries with
  | nil =>
      intro acc _ _ _ _ _
      refine ⟨by simp [movesOf], rfl, by simp [createsOf]⟩
  | cons e rest ih =>
      intro acc hst h1 h2 h3 h4
      cases e with
      | createDir p stt =>
          have hsucc : stt = "success" := hst (HEntry.createDir p stt) (by simp)
          have hstep : undoStep acc (.createDir p stt) =
              { acc with dirsPath := acc.dirsPath ++ [p] } := by
            unfold undoStep
            rw [if_neg (by simp [entryStatus, hsucc])]
          have hmv : movesOf (HEntry.createDir p stt :: rest) = movesOf rest := by
            simp [movesOf]
          have hcr : createsOf (HEntry.createDir p stt :: rest) = p :: createsOf rest := by
            simp [createsOf]
          rw [List.foldl_cons, hstep]
          rw [hmv] at h1 h2 h3 h4
          obtain ⟨e1, e2, e3⟩ := ih { acc with dirsPath := acc.dirsPath ++ [p] }
            (fun e he => hst e (by simp [he])) h1 h2 h3 h4
          rw [hmv, hcr]
          exact ⟨e1, e2, by rw [e3]; simp⟩
      | moveFile s dd onm stt =>
          have hsucc : stt = "success" := hst (HEntry.moveFile s dd onm stt) (by simp)
          have hmv : movesOf (HEntry.moveFile s dd onm stt :: rest) =
              (dd, s) :: movesOf rest := by
            simp [movesOf]
          have hcr : createsOf (HEntry.moveFile s dd onm stt :: rest) = createsOf rest := by
            simp [createsOf]
          rw [hmv] at h1 h2 h3 h4
          have hs : s ∈ acc.fs.files := h1 (dd, s) (by simp)
          have hdd : dd ∉ acc.fs.files ∧ dd ∉ acc.fs.dirs := h3 (dd, s) (by simp)
          have hstep : undoStep acc (.moveFile s dd onm stt) =
              { acc with fs := ⟨insert dd (acc.fs.files.erase s), acc.fs.dirs⟩,
                         movedBackCount := acc.movedBackCount + 1 } := by
            unfold undoStep
            rw [if_neg (by simp [entryStatus, hsucc])]
            show (if ¬ pathExistsIn acc.fs s then acc
                  else if pathExistsIn acc.fs dd then acc else _) = _
            rw [if_neg (not_not_intro (show pathExistsIn acc.fs s from Or.inl hs)),
              if_neg (show ¬ pathExistsIn acc.fs dd from
                fun hc => hc.elim (fun h => hdd.1 h) (fun h => hdd.2 h))]
          rw [List.foldl_cons, hstep]
          set acc2 : UndoAcc :=
            { acc with fs := ⟨insert dd (acc.fs.files.erase s), acc.fs.dirs⟩,
                       movedBackCount := acc.movedBackCount + 1 } with hacc2
          have hsnd : s ∉ (movesOf rest).map Prod.snd := (List.nodup_cons.mp (by simpa using h2)).1
          have hfst : dd ∉ (movesOf rest).map Prod.fst := (List.nodup_cons.mp (by simpa using h4)).1
          obtain ⟨e1, e2, e3⟩ := ih acc2
            (fun e he => hst e (by simp [he]))
            (fun m hm => by
              have hmf : m.2 ∈ acc.fs.files := h1 m (by simp [hm])
              have hne : m.2 ≠ s := fun hc => hsnd (hc ▸ List.mem_map_of_mem Prod.snd hm)
              show m.2 ∈ insert dd (acc.fs.files.erase s)
              exact Finset.mem_insert_of_mem (Finset.mem_erase.mpr ⟨hne, hmf⟩))
            ((List.nodup_cons.mp (by simpa using h2)).2)
            (fun m hm => by
              have hmo := h3 m (by simp [hm])
              have hne : m.1 ≠ dd := fun hc => hfst (hc ▸ List.mem_map_of_mem Prod.fst hm)
              constructor
              · show m.1 ∉ insert dd (acc.fs.files.erase s)
                intro hc
                rcases Finset.mem_insert.mp hc with hc2 | hc2
                · exact hne hc2
                · exact hmo.1 (Finset.mem_erase.mp hc2).2
              · exact hmo.2)
            ((List.nodup_cons.mp (by simpa using h4)).2)
          rw [hmv, hcr]
          refine ⟨?_, e2, e3⟩
          rw [e1]
          show _ = (acc.fs.files \ ((dd, s).2 :: (movesOf rest).map Prod.snd).toFinset) ∪
            ((dd, s).1 :: (movesOf rest).map Prod.fst).toFinset
          simp only [List.toFinset_cons]
          have hddT : dd ∉ ((movesOf rest).map Prod.snd).toFinset := by
            intro hc
            obtain ⟨m, hm, hmeq⟩ := List.mem_map.mp (List.mem_toFinset.mp hc)
            exact hdd.1 (hmeq ▸ h1 m (by simp [hm]))
          exact (undo_step_files_eq hddT).symm

theorem nameOf_concat (d : FPath) (n : String) : nameOf (d ++ [n]) = n := by
  simp [nameOf, List.getLast?_concat]

theorem parentOf_concat (d : FPath) (n : String) : parentOf (d ++ [n]) = d := by
  simp [parentOf]

theorem createDir_noop (st : OrgState) (destPath : FPath)
    (h : destPath ∈ st.createdDirs ∨ pathExistsIn st.fs destPath) :
    createDirStep false st destPath = st := by
  unfold createDirStep
  rw [if_neg]
  rintro ⟨h1, h2⟩
  exact h.elim h1 h2

theorem createDir_acts (st : OrgState) (destPath : FPath)
    (h1 : destPath ∉ st.createdDirs) (h2 : ¬ pathExistsIn st.fs destPath) :
    createDirStep false st destPath =
      { st with fs := ⟨st.fs.files, insert destPath st.fs.dirs⟩,
                createdDirs := st.createdDirs ++ [destPath],
                createdDirCount := st.createdDirCount + 1,
                batch := st.batch ++ [.createDir destPath "success"],
                entries := st.entries ++ [.createDir destPath "success"] } := by
  unfold createDirStep
  rw [if_pos ⟨h1, h2⟩]
  rfl

theorem createDir_dry_acts (st : OrgState) (destPath : FPath)
    (h1 : destPath ∉ st.createdDirs) (h2 : ¬ pathExistsIn st.fs destPath) :
    createDirStep true st destPath =
      { st with createdDirs := st.createdDirs ++ [destPath],
                createdDirCount := st.createdDirCount + 1 } := by
  unfold createDirStep
  rw [if_pos ⟨h1, h2⟩]
  rfl

theorem createDir_dry_noop (st : OrgState) (destPath : FPath)
    (h : destPath ∈ st.createdDirs ∨ pathExistsIn st.fs destPath) :
    createDirStep true st destPath = st := by
  unfold createDirStep
  rw [if_neg]
  rintro ⟨h1, h2⟩
  exact h.elim h1 h2

theorem moveFile_real (st : OrgState) (f destPath : FPath) (name : String)
    (hdir : destPath ∈ st.fs.dirs) :
    moveFileStep false st f destPath name =
      { st with
        fs := ⟨insert (chooseTarget st.fs destPath name) (st.fs.files.erase f),
               st.fs.dirs⟩,
        movedFilesCount := st.movedFilesCount + 1,
        batch := st.batch ++
          [.moveFile (chooseTarget st.fs destPath name) f name "success"],
        entries := st.entries ++
          [.moveFile (chooseTarget st.fs destPath name) f name "success"] } := by
  unfold moveFileStep
  exact if_pos hdir

theorem moveFile_dry (st : OrgState) (f destPath : FPath) (name : String) :
    moveFileStep true st f destPath name =
      { st with movedFilesCount := st.movedFilesCount + 1 } := rfl

theorem orgInvMs_cache (d : FPath) (cfg : FileCategories) (fs₀ : FS)
    (st : OrgState) (ms : List (FPath × FPath)) (c2 : RuleCache)
    (h : OrgInvMs d cfg fs₀ st ms)
    (hc2 : ∀ kv ∈ c2, kv.2 ∈ destNames cfg) :
    OrgInvMs d cfg fs₀ { st with cache := c2 } ms :=
  { filesEq := h.filesEq, dirsEq := h.dirsEq, origsShape := h.origsShape,
    origsMem := h.origsMem, origsNodup := h.origsNodup,
    targetsLen := h.targetsLen, targetsFresh := h.targetsFresh,
    targetsNodup := h.targetsNodup, createdShape := h.createdShape,
    createdFresh := h.createdFresh, createdNodup := h.createdNodup,
    movesGood := h.movesGood, createsGood := h.createsGood,
    statusGood := h.statusGood, cacheGood := hc2 }

theorem movesOf_append (a b : List HEntry) :
    movesOf (a ++ b) = movesOf a ++ movesOf b := by
  simp [movesOf, List.filterMap_append]

theorem createsOf_append (a b : List HEntry) :
    createsOf (a ++ b) = createsOf a ++ createsOf b := by
  simp [createsOf, List.filterMap_append]

theorem finalizeHistory_frame (lastDir : Bool) (st : OrgState) :
    (finalizeHistory lastDir st).fs = st.fs ∧
    (finalizeHistory lastDir st).entries = st.entries ∧
    (finalizeHistory lastDir st).createdDirs = st.createdDirs ∧
    (finalizeHistory lastDir st).movedFilesCount = st.movedFilesCount ∧
    (finalizeHistory lastDir st).createdDirCount = st.createdDirCount ∧
    (finalizeHistory lastDir st).errorsCount = st.errorsCount := by
  unfold finalizeHistory
  cases lastDir <;> exact ⟨rfl, rfl, rfl, rfl, rfl, rfl⟩

theorem flushBatch_frame (st : OrgState) :
    (flushBatch st).fs = st.fs ∧
    (flushBatch st).entries = st.entries ∧
    (flushBatch st).createdDirs = st.createdDirs ∧
    (flushBatch st).cache = st.cache ∧
    (flushBatch st).movedFilesCount = st.movedFilesCount ∧
    (flushBatch st).createdDirCount = st.createdDirCount ∧
    (flushBatch st).errorsCount = st.errorsCount :=
  ⟨rfl, rfl, rfl, rfl, rfl, rfl, rfl⟩

theorem orgInvMs_flush (d : FPath) (cfg : FileCategories) (fs₀ : FS)
    (st : OrgState) (ms : List (FPath × FPath))
    (h : OrgInvMs d cfg fs₀ st ms) :
    OrgInvMs d cfg fs₀ (flushBatch st) ms :=
  { filesEq := h.filesEq, dirsEq := h.dirsEq, origsShape := h.origsShape,
    origsMem := h.origsMem, origsNodup := h.origsNodup,
    targetsLen := h.targetsLen, targetsFresh := h.targetsFresh,
    targetsNodup := h.targetsNodup, createdShape := h.createdShape,
    createdFresh := h.createdFresh, createdNodup := h.createdNodup,
    movesGood := h.movesGood, createsGood := h.createsGood,
    statusGood := h.statusGood, cacheGood := h.cacheGood }

theorem orgInvMs_createDir (d : FPath) (cfg : FileCategories) (fs₀ : FS)
    (st : OrgState) (ms : List (FPath × FPath)) (dest : String)
    (h : OrgInvMs d cfg fs₀ st ms)
    (hndC : d ++ [dest] ∉ st.createdDirs)
    (hnd₀ : d ++ [dest] ∉ fs₀.dirs)
    (hnf₀ : d ++ [dest] ∉ fs₀.files) :
    OrgInvMs d cfg fs₀
      { st with fs := ⟨st.fs.files, insert (d ++ [dest]) st.fs.dirs⟩,
                createdDirs := st.createdDirs ++ [d ++ [dest]],
                createdDirCount := st.createdDirCount + 1,
                batch := st.batch ++ [.createDir (d ++ [dest]) "success"],
                entries := st.entries ++ [.createDir (d ++ [dest]) "success"] }
      ms :=
  { filesEq := h.filesEq
    dirsEq := by
      show insert (d ++ [dest]) st.fs.dirs =
        fs₀.dirs ∪ (st.createdDirs ++ [d ++ [dest]]).toFinset
      rw [h.dirsEq]
      ext x
      simp only [Finset.mem_insert, Finset.mem_union, List.mem_toFinset,
        List.mem_append, List.mem_singleton]
      tauto
    origsShape := h.origsShape
    origsMem := h.origsMem
    origsNodup := h.origsNodup
    targetsLen := h.targetsLen
    targetsFresh := h.targetsFresh
    targetsNodup := h.targetsNodup
    createdShape := by
      intro c hc
      rcases List.mem_append.mp hc with hc2 | hc2
      · exact h.createdShape c hc2
      · exact ⟨dest, by simpa using hc2⟩
    createdFresh := by
      intro c hc
      rcases List.mem_append.mp hc with hc2 | hc2
      · exact h.createdFresh c hc2
      · have : c = d ++ [dest] := by simpa using hc2
        exact this ▸ ⟨hnd₀, hnf₀⟩
    createdNodup := by
      refine List.Nodup.append h.createdNodup (List.nodup_singleton _) ?_
      intro a ha hb
      have : a = d ++ [dest] := by simpa using hb
      exact hndC (this ▸ ha)
    movesGood := by
      show movesOf (st.entries ++ [.createDir (d ++ [dest]) "success"]) = ms
      rw [movesOf_append, h.movesGood]
      simp [movesOf]
    createsGood := by
      show createsOf (st.entries ++ [.createDir (d ++ [dest]) "success"]) =
        st.createdDirs ++ [d ++ [dest]]
      rw [createsOf_append, h.createsGood]
      simp [createsOf]
    statusGood := by
      intro e he
      rcases List.mem_append.mp he with he2 | he2
      · exact h.statusGood e he2
      · have : e = HEntry.createDir (d ++ [dest]) "success" := by simpa using he2
        rw [this]
        rfl
    cacheGood := h.cacheGood }

theorem orgInvMs_moveFile (d : FPath) (cfg : FileCategories) (fs₀ : FS)
    (st : OrgState) (ms : List (FPath × FPath)) (f t : FPath) (nm : String)
    (h : OrgInvMs d cfg fs₀ st ms)
    (hfshape : ∃ n, f = d ++ [n])
    (hf₀ : f ∈ fs₀.files)
    (hfO : f ∉ (ms.map Prod.fst).toFinset)
    (hfT : f ∉ (ms.map Prod.snd).toFinset)
    (htlen : t.length = d.length + 2)
    (htf₀ : t ∉ fs₀.files) (htd₀ : t ∉ fs₀.dirs)
    (htT : t ∉ (ms.map Prod.snd).toFinset) :
    OrgInvMs d cfg fs₀
      { st with fs := ⟨insert t (st.fs.files.erase f), st.fs.dirs⟩,
                movedFilesCount := st.movedFilesCount + 1,
                batch := st.batch ++ [.moveFile t f nm "success"],
                entries := st.entries ++ [.moveFile t f nm "success"] }
      (ms ++ [(f, t)]) :=
  { filesEq := by
      show insert t (st.fs.files.erase f) =
        (fs₀.files \ ((ms ++ [(f, t)]).map Prod.fst).toFinset) ∪
          ((ms ++ [(f, t)]).map Prod.snd).toFinset
      have hO2 : ((ms ++ [(f, t)]).map Prod.fst).toFinset =
          insert f (ms.map Prod.fst).toFinset := by
        rw [List.map_append]
        ext y
        simp [or_comm]
      have hT2 : ((ms ++ [(f, t)]).map Prod.snd).toFinset =
          insert t (ms.map Prod.snd).toFinset := by
        rw [List.map_append]
        ext y
        simp [or_comm]
      rw [h.filesEq, files_update_eq hfT, hO2, hT2]
    dirsEq := h.dirsEq
    origsShape := by
      intro m hm
      rcases List.mem_append.mp hm with hm2 | hm2
      · exact h.origsShape m hm2
      · have : m = (f, t) := by simpa using hm2
        exact this ▸ hfshape
    origsMem := by
      intro m hm
      rcases List.mem_append.mp hm with hm2 | hm2
      · exact h.origsMem m hm2
      · have : m = (f, t) := by simpa using hm2
        exact this ▸ hf₀
    origsNodup := by
      rw [List.map_append]
      refine List.Nodup.append h.origsNodup (by simp) ?_
      intro a ha hb
      have : a = f := by simpa using hb
      exact hfO (this ▸ List.mem_toFinset.mpr ha)
    targetsLen := by
      intro m hm
      rcases List.mem_append.mp hm with hm2 | hm2
      · exact h.targetsLen m hm2
      · have : m = (f, t) := by simpa using hm2
        exact this ▸ htlen
    targetsFresh := by
      intro m hm
      rcases List.mem_append.mp hm with hm2 | hm2
      · exact h.targetsFresh m hm2
      · have : m = (f, t) := by simpa using hm2
        exact this ▸ ⟨htf₀, htd₀⟩
    targetsNodup := by
      rw [List.map_append]
      refine List.Nodup.append h.targetsNodup (by simp) ?_
      intro a ha hb
      have : a = t := by simpa using hb
      exact htT (this ▸ List.mem_toFinset.mpr ha)
    createdShape := h.createdShape
    createdFresh := h.createdFresh
    createdNodup := h.createdNodup
    movesGood := by
      show movesOf (st.entries ++ [.moveFile t f nm "success"]) = ms ++ [(f, t)]
      rw [movesOf_append, h.movesGood]
      rfl
    createsGood := by
      show createsOf (st.entries ++ [.moveFile t f nm "success"]) = st.createdDirs
      rw [createsOf_append, h.createsGood]
      simp [createsOf]
    statusGood := by
      intro e he
      rcases List.mem_append.mp he with he2 | he2
      · exact h.statusGood e he2
      · have : e = HEntry.moveFile t f nm "success" := by simpa using he2
        rw [this]
        rfl
    cacheGood := h.cacheGood }

theorem orgStep_main_eq (cfg : FileCategories) (sizes : FPath → Nat)
    (st : OrgState) (d : FPath) (nm dest : String) (cache2 : RuleCache)
    (hmem : d ++ [nm] ∈ st.fs.files)
    (hany : ¬ (st.createdDirs.any (fun cd => cd.isPrefixOf (d ++ [nm])) = true))
    (hdne : dest ≠ "")
    (hcat : categorizeFile cfg st.cache (pySuffix nm) (sizes (d ++ [nm])) =
      .ok (dest, cache2)) :
    organizeStep cfg sizes false st (d ++ [nm]) =
      .ok (if batchSize ≤ (orgMainSt3 st cache2 d dest nm).batch.length ∧ (false = false)
           then flushBatch (orgMainSt3 st cache2 d dest nm)
           else orgMainSt3 st cache2 d dest nm) := by
  unfold organizeStep orgMainSt3
  rw [if_neg (not_not_intro hmem), if_neg hany]
  simp only [nameOf_concat]
  rw [hcat]
  simp only [parentOf_concat, if_neg hdne]

theorem cand_facts_of_inv (d : FPath) (cfg : FileCategories) (fs₀ : FS)
    (st : OrgState) (ms : List (FPath × FPath)) (nm : String)
    (hinv : OrgInvMs d cfg fs₀ st ms) (hmem : d ++ [nm] ∈ st.fs.files) :
    d ++ [nm] ∈ fs₀.files ∧ d ++ [nm] ∉ (ms.map Prod.fst).toFinset ∧
      d ++ [nm] ∉ (ms.map Prod.snd).toFinset := by
  have hfT : d ++ [nm] ∉ (ms.map Prod.snd).toFinset := by
    intro hc
    have := target_len_of_mem hinv.targetsLen hc
    simp only [List.length_append, List.length_cons, List.length_nil] at this
    omega
  have hm := hmem
  rw [hinv.filesEq] at hm
  rcases Finset.mem_union.mp hm with h1 | h1
  · exact ⟨(Finset.mem_sdiff.mp h1).1, (Finset.mem_sdiff.mp h1).2, hfT⟩
  · exact absurd h1 hfT

theorem any_created_false_of_inv (d : FPath) (cfg : FileCategories) (fs₀ : FS)
    (st : OrgState) (ms : List (FPath × FPath)) (nm : String)
    (hinv : OrgInvMs d cfg fs₀ st ms) (hmem : d ++ [nm] ∈ st.fs.files) :
    ¬ (st.createdDirs.any (fun cd => cd.isPrefixOf (d ++ [nm])) = true) := by
  intro hc
  obtain ⟨cd, hcd, hpf⟩ := List.any_eq_true.mp hc
  have hpre : cd <+: d ++ [nm] := List.isPrefixOf_iff_prefix.mp hpf
  obtain ⟨m, hm⟩ := hinv.createdShape cd hcd
  have hlen : cd.length = (d ++ [nm]).length := by rw [hm]; simp
  have heq2 : cd = d ++ [nm] := prefix_eq_of_length hpre hlen
  have hf0 := (cand_facts_of_inv d cfg fs₀ st ms nm hinv hmem).1
  exact (hinv.createdFresh cd hcd).2 (heq2 ▸ hf0)

theorem destPath_facts_of_inv (d : FPath) (cfg : FileCategories) (fs₀ : FS)
    (st : OrgState) (ms : List (FPath × FPath)) (dest : String)
    (hinv : OrgInvMs d cfg fs₀ st ms)
    (hnf₀ : d ++ [dest] ∉ fs₀.files) (hnd₀ : d ++ [dest] ∉ fs₀.dirs) :
    d ++ [dest] ∉ st.fs.files ∧
      (pathExistsIn st.fs (d ++ [dest]) ↔ d ++ [dest] ∈ st.createdDirs) := by
  have hnf : d ++ [dest] ∉ st.fs.files := by
    rw [hinv.filesEq]
    intro hc
    rcases Finset.mem_union.mp hc with h1 | h1
    · exact hnf₀ (Finset.mem_sdiff.mp h1).1
    · have := target_len_of_mem hinv.targetsLen h1
      simp only [List.length_append, List.length_cons, List.length_nil] at this
      omega
  refine ⟨hnf, ?_, ?_⟩
  · rintro (hc | hc)
    · exact absurd hc hnf
    · rw [hinv.dirsEq] at hc
      rcases Finset.mem_union.mp hc with h1 | h1
      · exact absurd h1 hnd₀
      · exact List.mem_toFinset.mp h1
  · intro hc
    refine Or.inr ?_
    rw [hinv.dirsEq]
    exact Finset.mem_union_right _ (List.mem_toFinset.mpr hc)

theorem target_fresh_of_inv (d : FPath) (cfg : FileCategories) (fs₀ : FS)
    (X : OrgState) (ms : List (FPath × FPath)) (t : FPath)
    (hinvX : OrgInvMs d cfg fs₀ X ms)
    (hnotex : ¬ pathExistsIn X.fs t)
    (htlen : t.length = d.length + 2) :
    t ∉ fs₀.files ∧ t ∉ fs₀.dirs ∧ t ∉ (ms.map Prod.snd).toFinset := by
  have hnf : t ∉ X.fs.files := fun hc => hnotex (Or.inl hc)
  have hnd : t ∉ X.fs.dirs := fun hc => hnotex (Or.inr hc)
  refine ⟨?_, ?_, ?_⟩
  · intro hc
    apply hnf
    rw [hinvX.filesEq]
    refine Finset.mem_union_left _ (Finset.mem_sdiff.mpr ⟨hc, ?_⟩)
    intro hO
    have := orig_len_of_mem hinvX.origsShape hO
    omega
  · intro hc
    apply hnd
    rw [hinvX.dirsEq]
    exact Finset.mem_union_left _ hc
  · intro hc
    apply hnf
    rw [hinvX.filesEq]
    exact Finset.mem_union_right _ hc

theorem orgStep_real_main (d : FPath) (cfg : FileCategories) (sizes : FPath → Nat)
    (fs₀ : FS) (st : OrgState) (ms : List (FPath × FPath)) (nm dest : String)
    (cache2 : RuleCache) (hcfg : CfgWF cfg)
    (hfree : ∀ n ∈ destNames cfg, d ++ [n] ∉ fs₀.files ∧ d ++ [n] ∉ fs₀.dirs)
    (hinv : OrgInvMs d cfg fs₀ st ms)
    (hmem : d ++ [nm] ∈ st.fs.files)
    (hcat : categorizeFile cfg st.cache (pySuffix nm) (sizes (d ++ [nm])) =
      .ok (dest, cache2)) :
    ∃ st2 t,
      organizeStep cfg sizes false st (d ++ [nm]) = .ok st2 ∧
      OrgInvMs d cfg fs₀ st2 (ms ++ [(d ++ [nm], t)]) ∧
      st2.cache = cache2 ∧
      st2.movedFilesCount = st.movedFilesCount + 1 ∧
      st2.errorsCount = st.errorsCount ∧
      st2.createdDirs = (if d ++ [dest] ∈ st.createdDirs then st.createdDirs
        else st.createdDirs ++ [d ++ [dest]]) ∧
      st2.createdDirCount = (if d ++ [dest] ∈ st.createdDirs then st.createdDirCount
        else st.createdDirCount + 1) := by
  obtain ⟨hdest, hdne, hc2good⟩ :=
    categorizeFile_props cfg st.cache cache2 _ _ dest hcfg hinv.cacheGood hcat
  obtain ⟨hf₀, hfO, hfT⟩ := cand_facts_of_inv d cfg fs₀ st ms nm hinv hmem
  have hany := any_created_false_of_inv d cfg fs₀ st ms nm hinv hmem
  obtain ⟨hdpf, hexIff⟩ := destPath_facts_of_inv d cfg fs₀ st ms dest hinv
    (hfree dest hdest).1 (hfree dest hdest).2
  have heq := orgStep_main_eq cfg sizes st d nm dest cache2 hmem hany hdne hcat
  have invc : OrgInvMs d cfg fs₀ { st with cache := cache2 } ms :=
    orgInvMs_cache d cfg fs₀ st ms cache2 hinv hc2good
  by_cases hcr : d ++ [dest] ∈ st.createdDirs
  · have hcd : createDirStep false { st with cache := cache2 } (d ++ [dest]) =
        { st with cache := cache2 } :=
      createDir_noop _ _ (Or.inl hcr)
    have hdirc : d ++ [dest] ∈ ({ st with cache := cache2 } : OrgState).fs.dirs := by
      show d ++ [dest] ∈ st.fs.dirs
      rw [hinv.dirsEq]
      exact Finset.mem_union_right _ (List.mem_toFinset.mpr hcr)
    obtain ⟨n2, hn2⟩ :=
      chooseTarget_shape ({ st with cache := cache2 } : OrgState).fs (d ++ [dest]) nm
    have htlen :
        (chooseTarget ({ st with cache := cache2 } : OrgState).fs (d ++ [dest]) nm).length =
          d.length + 2 := by
      rw [hn2]
      simp only [List.length_append, List.length_cons, List.length_nil]
    have hfr := target_fresh_of_inv d cfg fs₀ { st with cache := cache2 } ms
      (chooseTarget ({ st with cache := cache2 } : OrgState).fs (d ++ [dest]) nm) invc
      (chooseTarget_free _ _ _) htlen
    have inv2 := orgInvMs_moveFile d cfg fs₀ { st with cache := cache2 } ms
      (d ++ [nm]) (chooseTarget ({ st with cache := cache2 } : OrgState).fs (d ++ [dest]) nm)
      nm invc ⟨nm, rfl⟩ hf₀ hfO hfT htlen hfr.1 hfr.2.1 hfr.2.2
    have hmvR := moveFile_real { st with cache := cache2 } (d ++ [nm]) (d ++ [dest]) nm hdirc
    have hst3R : orgMainSt3 st cache2 d dest nm =
        { ({ st with cache := cache2 } : OrgState) with
          fs := ⟨insert (chooseTarget ({ st with cache := cache2 } : OrgState).fs
                   (d ++ [dest]) nm)
                  (({ st with cache := cache2 } : OrgState).fs.files.erase (d ++ [nm])),
                 ({ st with cache := cache2 } : OrgState).fs.dirs⟩,
          movedFilesCount := ({ st with cache := cache2 } : OrgState).movedFilesCount + 1,
          batch := ({ st with cache := cache2 } : OrgState).batch ++
            [.moveFile (chooseTarget ({ st with cache := cache2 } : OrgState).fs
              (d ++ [dest]) nm) (d ++ [nm]) nm "success"],
          entries := ({ st with cache := cache2 } : OrgState).entries ++
            [.moveFile (chooseTarget ({ st with cache := cache2 } : OrgState).fs
              (d ++ [dest]) nm) (d ++ [nm]) nm "success"] } := by
      unfold orgMainSt3
      rw [hcd]
      exact hmvR
    by_cases hb : batchSize ≤ (orgMainSt3 st cache2 d dest nm).batch.length
    · rw [if_pos ⟨hb, rfl⟩] at heq
      refine ⟨_, chooseTarget ({ st with cache := cache2 } : OrgState).fs (d ++ [dest]) nm,
        heq, ?_, ?_, ?_, ?_, ?_, ?_⟩
      · rw [hst3R]
        exact orgInvMs_flush _ _ _ _ _ inv2
      · rw [hst3R]
        rfl
      · rw [hst3R]
        rfl
      · rw [hst3R]
        rfl
      · rw [hst3R, if_pos hcr]
        rfl
      · rw [hst3R, if_pos hcr]
        rfl
    · rw [if_neg (fun hc => hb hc.1)] at heq
      refine ⟨_, chooseTarget ({ st with cache := cache2 } : OrgState).fs (d ++ [dest]) nm,
        heq, ?_, ?_, ?_, ?_, ?_, ?_⟩
      · rw [hst3R]
        exact inv2
      · rw [hst3R]
      · rw [hst3R]
      · rw [hst3R]
      · rw [hst3R, if_pos hcr]
      · rw [hst3R, if_pos hcr]
  · have hnexc : ¬ pathExistsIn ({ st with cache := cache2 } : OrgState).fs (d ++ [dest]) :=
      fun hex => hcr (hexIff.mp hex)
    have hcd := createDir_acts { st with cache := cache2 } (d ++ [dest]) hcr hnexc
    set stC := createDirStep false { st with cache := cache2 } (d ++ [dest]) with hstC
    have invC : OrgInvMs d cfg fs₀ stC ms := by
      rw [hcd]
      exact orgInvMs_createDir d cfg fs₀ { st with cache := cache2 } ms dest invc hcr
        (hfree dest hdest).2 (hfree dest hdest).1
    have hdirC : d ++ [dest] ∈ stC.fs.dirs := by
      rw [hcd]
      exact Finset.mem_insert_self _ _
    obtain ⟨n2, hn2⟩ := chooseTarget_shape stC.fs (d ++ [dest]) nm
    have htlen : (chooseTarget stC.fs (d ++ [dest]) nm).length = d.length + 2 := by
      rw [hn2]
      simp only [List.length_append, List.length_cons, List.length_nil]
    have hfr := target_fresh_of_inv d cfg fs₀ stC ms
      (chooseTarget stC.fs (d ++ [dest]) nm) invC (chooseTarget_free _ _ _) htlen
    have inv2 := orgInvMs_moveFile d cfg fs₀ stC ms (d ++ [nm])
      (chooseTarget stC.fs (d ++ [dest]) nm) nm invC ⟨nm, rfl⟩ hf₀ hfO hfT htlen
      hfr.1 hfr.2.1 hfr.2.2
    have hmvR := moveFile_real stC (d ++ [nm]) (d ++ [dest]) nm hdirC
    have hst3R : orgMainSt3 st cache2 d dest nm =
        { stC with
          fs := ⟨insert (chooseTarget stC.fs (d ++ [dest]) nm)
                  (stC.fs.files.erase (d ++ [nm])), stC.fs.dirs⟩,
          movedFilesCount := stC.movedFilesCount + 1,
          batch := stC.batch ++
            [.moveFile (chooseTarget stC.fs (d ++ [dest]) nm) (d ++ [nm]) nm "success"],
          entries := stC.entries ++
            [.moveFile (chooseTarget stC.fs (d ++ [dest]) nm) (d ++ [nm]) nm "success"] } := by
      unfold orgMainSt3
      rw [← hstC]
      exact hmvR
    have hcds : stC.createdDirs = st.createdDirs ++ [d ++ [dest]] := by rw [hcd]
    have hcdc : stC.createdDirCount = st.createdDirCount + 1 := by rw [hcd]
    have hmvc : stC.movedFilesCount = st.movedFilesCount := by rw [hcd]
    have herr : stC.errorsCount = st.errorsCount := by rw [hcd]
    have hcac : stC.cache = cache2 := by rw [hcd]
    by_cases hb : batchSize ≤ (orgMainSt3 st cache2 d dest nm).batch.length
    · rw [if_pos ⟨hb, rfl⟩] at heq
      refine ⟨_, chooseTarget stC.fs (d ++ [dest]) nm, heq, ?_, ?_, ?_, ?_, ?_, ?_⟩
      · rw [hst3R]
        exact orgInvMs_flush _ _ _ _ _ inv2
      · rw [hst3R]
        exact hcac
      · rw [hst3R]
        show stC.movedFilesCount + 1 = st.movedFilesCount + 1
        rw [hmvc]
      · rw [hst3R]
        exact herr
      · rw [hst3R, if_neg hcr]
        exact hcds
      · rw [hst3R, if_neg hcr]
        exact hcdc
    · rw [if_neg (fun hc => hb hc.1)] at heq
      refine ⟨_, chooseTarget stC.fs (d ++ [dest]) nm, heq, ?_, ?_, ?_, ?_, ?_, ?_⟩
      · rw [hst3R]
        exact inv2
      · rw [hst3R]
        exact hcac
      · rw [hst3R]
        show stC.movedFilesCount + 1 = st.movedFilesCount + 1
        rw [hmvc]
      · rw [hst3R]
        exact herr
      · rw [hst3R, if_neg hcr]
        exact hcds
      · rw [hst3R, if_neg hcr]
        exact hcdc

theorem orgStep_skip (cfg : FileCategories) (sizes : FPath → Nat) (dryRun : Bool)
    (st : OrgState) (f : FPath) (h : f ∉ st.fs.files) :
    organizeStep cfg sizes dryRun st f = .ok st := by
  unfold organizeStep
  rw [if_pos h]

theorem orgFold_inv (d : FPath) (cfg : FileCategories) (sizes : FPath → Nat)
    (fs₀ : FS) (hcfg : CfgWF cfg)
    (hfree : ∀ n ∈ destNames cfg, d ++ [n] ∉ fs₀.files ∧ d ++ [n] ∉ fs₀.dirs) :
    ∀ (cands : List FPath) (st : OrgState) (ms : List (FPath × FPath)) (st2 : OrgState),
      (∀ f ∈ cands, ∃ n, f = d ++ [n]) →
      OrgInvMs d cfg fs₀ st ms →
      orgFold cfg sizes false cands st = .ok st2 →
      ∃ ms2, OrgInvMs d cfg fs₀ st2 ms2 := by
  intro cands
  induction cands with
  | nil =>
      intro st ms st2 _ hinv hrun
      cases hrun
      exact ⟨ms, hinv⟩
  | cons f rest ih =>
      intro st ms st2 hshape hinv hrun
      unfold orgFold at hrun
      by_cases hmem : f ∈ st.fs.files
      · obtain ⟨nm, hnm⟩ := hshape f (by simp)
        subst hnm
        cases hcat : categorizeFile cfg st.cache (pySuffix nm) (sizes (d ++ [nm])) with
        | error e =>
            have hstep : organizeStep cfg sizes false st (d ++ [nm]) = .error e := by
              unfold organizeStep
              rw [if_neg (not_not_intro hmem),
                if_neg (any_created_false_of_inv d cfg fs₀ st ms nm hinv hmem)]
              simp only [nameOf_concat]
              rw [hcat]
            rw [hstep] at hrun
            cases hrun
        | ok p =>
            obtain ⟨dest, cache2⟩ := p
            obtain ⟨st3, t, hstep, hinv3, _, _, _, _, _⟩ :=
              orgStep_real_main d cfg sizes fs₀ st ms nm dest cache2 hcfg hfree hinv
                hmem hcat
            rw [hstep] at hrun
            exact ih st3 (ms ++ [(d ++ [nm], t)]) st2
              (fun g hg => hshape g (by simp [hg])) hinv3 hrun
      · rw [orgStep_skip cfg sizes false st f hmem] at hrun
        exact ih st ms st2 (fun g hg => hshape g (by simp [hg])) hinv hrun

theorem orgInvMs_init (d : FPath) (cfg : FileCategories) (fs₀ : FS)
    (dryRun newHist : Bool) :
    OrgInvMs d cfg fs₀ (initOrgState fs₀ dryRun newHist) [] :=
  { filesEq := by simp [initOrgState]
    dirsEq := by simp [initOrgState]
    origsShape := by simp
    origsMem := by simp
    origsNodup := by simp
    targetsLen := by simp
    targetsFresh := by simp
    targetsNodup := by simp
    createdShape := by simp [initOrgState]
    createdFresh := by simp [initOrgState]
    createdNodup := by simp [initOrgState]
    movesGood := rfl
    createsGood := rfl
    statusGood := by simp [initOrgState]
    cacheGood := by simp [initOrgState] }

theorem removeCreated_aux (fs₀ : FS) (d : FPath) (hwf : FSWF fs₀) :
    ∀ (L : List FPath) (C : Finset FPath) (r : Nat),
      L.Nodup →
      (∀ p ∈ L, p ∈ C) →
      (∀ c ∈ C, (∃ n, c = d ++ [n]) ∧ c ∉ fs₀.dirs ∧ c ∉ fs₀.files) →
      L.foldl (removeOneDir false false) (⟨fs₀.files, fs₀.dirs ∪ C⟩, r, 0) =
        (⟨fs₀.files, fs₀.dirs ∪ (C \ L.toFinset)⟩, r + L.length, 0) := by
  intro L
  induction L with
  | nil =>
      intro C r _ _ _
      simp
  | cons p rest ih =>
      intro C r hnd hLC hC
      have hpC : p ∈ C := hLC p (by simp)
      obtain ⟨⟨np, hpshape⟩, hpnd, hpnf⟩ := hC p hpC
      have hpd : p ∈ fs₀.dirs ∪ C := Finset.mem_union_right _ hpC
      have hemp : dirIsEmpty (⟨fs₀.files, fs₀.dirs ∪ C⟩ : FS) p := by
        constructor
        · intro q hq hsb
          exact hpnd (hwf.fileAnc q hq p hsb.1 hsb.2)
        · intro q hq hsb
          rcases Finset.mem_union.mp hq with h1 | h1
          · exact hpnd (hwf.dirAnc q h1 p hsb.1 hsb.2)
          · obtain ⟨nq, hnq⟩ := (hC q h1).1
            exact hsb.2 (prefix_eq_of_length hsb.1 (by rw [hpshape, hnq]; simp))
      have hstep : removeOneDir false false (⟨fs₀.files, fs₀.dirs ∪ C⟩, r, 0) p =
          (⟨fs₀.files, fs₀.dirs ∪ C.erase p⟩, r + 1, 0) := by
        unfold removeOneDir
        rw [if_neg (not_not_intro (show pathExistsIn (⟨fs₀.files, fs₀.dirs ∪ C⟩ : FS) p
          from Or.inr hpd)), if_pos rfl, if_pos ⟨hpd, hemp⟩]
        have : (fs₀.dirs ∪ C).erase p = fs₀.dirs ∪ C.erase p := by
          ext x
          simp only [Finset.mem_erase, Finset.mem_union]
          constructor
          · rintro ⟨hx1, hx2 | hx2⟩
            · exact Or.inl hx2
            · exact Or.inr ⟨hx1, hx2⟩
          · rintro (hx | ⟨hx1, hx2⟩)
            · exact ⟨fun hc => hpnd (hc ▸ hx), Or.inl hx⟩
            · exact ⟨hx1, Or.inr hx2⟩
        rw [this]
      rw [List.foldl_cons, hstep]
      have hndr : rest.Nodup := (List.nodup_cons.mp hnd).2
      have hpr : p ∉ rest := (List.nodup_cons.mp hnd).1
      rw [ih (C.erase p) (r + 1) hndr
        (fun q hq => Finset.mem_erase.mpr ⟨fun hc => hpr (hc ▸ hq), hLC q (by simp [hq])⟩)
        (fun c hc => hC c (Finset.mem_erase.mp hc).2)]
      have hsd : C.erase p \ rest.toFinset = C \ (p :: rest).toFinset := by
        ext x
        simp only [Finset.mem_sdiff, Finset.mem_erase, List.toFinset_cons,
          Finset.mem_insert, List.mem_toFinset]
        constructor
        · rintro ⟨⟨hx1, hx2⟩, hx3⟩
          exact ⟨hx2, fun hc => hc.elim hx1 hx3⟩
        · rintro ⟨hx1, hx2⟩
          exact ⟨⟨fun hc => hx2 (Or.inl hc), hx1⟩, fun hc => hx2 (Or.inr hc)⟩
      rw [hsd]
      have : r + 1 + rest.length = r + (p :: rest).length := by
        simp only [List.length_cons]
        omega
      rw [this]

theorem fs_ext {X Y : FS} (h1 : X.files = Y.files) (h2 : X.dirs = Y.dirs) : X = Y := by
  cases X
  cases Y
  cases h1
  cases h2
  rfl

theorem orgInvMs_finalize (d : FPath) (cfg : FileCategories) (fs₀ : FS)
    (st : OrgState) (ms : List (FPath × FPath)) (lastDir : Bool)
    (h : OrgInvMs d cfg fs₀ st ms) :
    OrgInvMs d cfg fs₀ (finalizeHistory lastDir st) ms := by
  obtain ⟨hfs, hent, hcd, _, _, _⟩ := finalizeHistory_frame lastDir st
  have hcache : (finalizeHistory lastDir st).cache = st.cache := by
    unfold finalizeHistory
    cases lastDir <;> rfl
  exact
    { filesEq := by rw [hfs]; exact h.filesEq
      dirsEq := by rw [hfs, hcd]; exact h.dirsEq
      origsShape := h.origsShape
      origsMem := h.origsMem
      origsNodup := h.origsNodup
      targetsLen := h.targetsLen
      targetsFresh := h.targetsFresh
      targetsNodup := h.targetsNodup
      createdShape := by rw [hcd]; exact h.createdShape
      createdFresh := by rw [hcd]; exact h.createdFresh
      createdNodup := by rw [hcd]; exact h.createdNodup
      movesGood := by rw [hent]; exact h.movesGood
      createsGood := by rw [hent, hcd]; exact h.createsGood
      statusGood := by rw [hent]; exact h.statusGood
      cacheGood := by rw [hcache]; exact h.cacheGood }

theorem undo_of_inv (d : FPath) (cfg : FileCategories) (fs₀ : FS)
    (stX : OrgState) (ms : List (FPath × FPath))
    (hwf : FSWF fs₀) (hinvSt : OrgInvMs d cfg fs₀ stX ms) :
    (undoCommand stX.entries stX.fs).1 = fs₀ := by
  have targetsSub : ∀ m ∈ movesOf stX.entries, m.2 ∈ stX.fs.files := by
    rw [hinvSt.movesGood]
    intro m hm
    rw [hinvSt.filesEq]
    exact Finset.mem_union_right _ (List.mem_toFinset.mpr (List.mem_map_of_mem Prod.snd hm))
  have sndNodup : ((movesOf stX.entries).map Prod.snd).Nodup := by
    rw [hinvSt.movesGood]
    exact hinvSt.targetsNodup
  have origsNot : ∀ m ∈ movesOf stX.entries, m.1 ∉ stX.fs.files ∧ m.1 ∉ stX.fs.dirs := by
    rw [hinvSt.movesGood]
    intro m hm
    have hm1 : m.1 ∈ fs₀.files := hinvSt.origsMem m hm
    constructor
    · rw [hinvSt.filesEq]
      intro hc
      rcases Finset.mem_union.mp hc with h1 | h1
      · exact (Finset.mem_sdiff.mp h1).2
          (List.mem_toFinset.mpr (List.mem_map_of_mem Prod.fst hm))
      · obtain ⟨n, hn⟩ := hinvSt.origsShape m hm
        have hl := target_len_of_mem hinvSt.targetsLen h1
        rw [hn] at hl
        simp only [List.length_append, List.length_cons, List.length_nil] at hl
        omega
    · rw [hinvSt.dirsEq]
      intro hc
      rcases Finset.mem_union.mp hc with h1 | h1
      · exact hwf.disj m.1 hm1 h1
      · exact (hinvSt.createdFresh m.1 (List.mem_toFinset.mp h1)).2 hm1
  have fstNodup : ((movesOf stX.entries).map Prod.fst).Nodup := by
    rw [hinvSt.movesGood]
    exact hinvSt.origsNodup
  obtain ⟨hufiles, hudirs, hupath⟩ := undoFold_replay stX.entries ⟨stX.fs, 0, 0, []⟩
    hinvSt.statusGood targetsSub sndNodup origsNot fstNodup
  have hO : (ms.map Prod.fst).toFinset ⊆ fs₀.files := by
    intro x hx
    obtain ⟨m, hm, rfl⟩ := List.mem_map.mp (List.mem_toFinset.mp hx)
    exact hinvSt.origsMem m hm
  have hT : ∀ x ∈ (ms.map Prod.snd).toFinset, x ∉ fs₀.files := by
    intro x hx
    obtain ⟨m, hm, rfl⟩ := List.mem_map.mp (List.mem_toFinset.mp hx)
    exact (hinvSt.targetsFresh m hm).1
  have hrestore : (undoFiles stX.entries stX.fs).fs.files = fs₀.files := by
    unfold undoFiles
    rw [hufiles, hinvSt.movesGood]
    show ((stX.fs.files \ (ms.map Prod.snd).toFinset) ∪ (ms.map Prod.fst).toFinset) = _
    rw [hinvSt.filesEq]
    exact restore_files_eq hO hT
  have hudirs2 : (undoFiles stX.entries stX.fs).fs.dirs = stX.fs.dirs := hudirs
  have hupath2 : (undoFiles stX.entries stX.fs).dirsPath = stX.createdDirs := by
    unfold undoFiles
    rw [hupath]
    show [] ++ createsOf stX.entries = stX.createdDirs
    rw [List.nil_append]
    exact hinvSt.createsGood
  unfold undoCommand
  by_cases hdp : (undoFiles stX.entries stX.fs).dirsPath = []
  · rw [if_pos hdp]
    have hcdnil : stX.createdDirs = [] := by rw [← hupath2, hdp]
    have hd2 : (undoFiles stX.entries stX.fs).fs.dirs = fs₀.dirs := by
      rw [hudirs2, hinvSt.dirsEq, hcdnil]
      simp
    exact fs_ext hrestore hd2
  · rw [if_neg hdp]
    show (removeDirsOfList false (undoFiles stX.entries stX.fs).dirsPath
      (undoFiles stX.entries stX.fs).fs).1 = fs₀
    have haccfs : (undoFiles stX.entries stX.fs).fs =
        ⟨fs₀.files, fs₀.dirs ∪ stX.createdDirs.toFinset⟩ :=
      fs_ext hrestore (by rw [hudirs2, hinvSt.dirsEq])
    unfold removeDirsOfList removeDirsLoop
    rw [hupath2, haccfs]
    rw [removeCreated_aux fs₀ d hwf stX.createdDirs.reverse stX.createdDirs.toFinset 0
      (by simpa using hinvSt.createdNodup)
      (fun p hp => List.mem_toFinset.mpr (by simpa using hp))
      (fun c hc => ⟨hinvSt.createdShape c (List.mem_toFinset.mp hc),
        (hinvSt.createdFresh c (List.mem_toFinset.mp hc)).1,
        (hinvSt.createdFresh c (List.mem_toFinset.mp hc)).2⟩)]
    show (⟨fs₀.files,
      fs₀.dirs ∪ (stX.createdDirs.toFinset \ stX.createdDirs.reverse.toFinset)⟩ : FS) = fs₀
    have hempty : stX.createdDirs.toFinset \ stX.createdDirs.reverse.toFinset = ∅ := by
      simp
    rw [hempty]
    exact fs_ext rfl (by simp)

/-- C2.  Amended claim: a non-dry-run `organize` of one directory followed
by the `undo` command restores the original filesystem exactly, provided
the candidate list holds only immediate children of the organized
directory (non-recursive traversal) and no possible destination name of
the rule set coincides with the name of an entry (file or subdirectory)
of that directory.  Every file move is reverted and every created
directory, then empty, is removed. -/
theorem c2_organize_undo_restores (cfg : FileCategories) (sizes : FPath → Nat)
    (d : FPath) (cands : List FPath) (fs₀ : FS) (st : OrgState)
    (hwf : FSWF fs₀) (hcfg : CfgWF cfg)
    (hfree : ∀ n ∈ destNames cfg, d ++ [n] ∉ fs₀.files ∧ d ++ [n] ∉ fs₀.dirs)
    (hshape : ∀ f ∈ cands, ∃ n, f = d ++ [n])
    (hrun : organizeRun cfg sizes false true true cands fs₀ = .ok st) :
    (undoCommand st.entries st.fs).1 = fs₀ := by
  unfold organizeRun at hrun
  cases hfold : orgFold cfg sizes false cands (initOrgState fs₀ false true) with
  | error e =>
      rw [hfold] at hrun
      cases hrun
  | ok stM =>
      rw [hfold] at hrun
      obtain ⟨ms, hinv⟩ := orgFold_inv d cfg sizes fs₀ hcfg hfree cands
        (initOrgState fs₀ false true) [] stM hshape (orgInvMs_init d cfg fs₀ false true)
        hfold
      cases hrun
      by_cases hbn : stM.batch ≠ [] ∧ (false = false)
      · rw [if_pos hbn]
        exact undo_of_inv d cfg fs₀ _ ms hwf (orgInvMs_finalize d cfg fs₀ stM ms true hinv)
      · rw [if_neg hbn]
        exact undo_of_inv d cfg fs₀ stM ms hwf hinv

theorem prefix_of_single {a : String} {q : List String} (h : q <+: [a]) :
    q = [] ∨ q = [a] := by
  cases q with
  | nil => exact Or.inl rfl
  | cons x q' =>
      obtain ⟨t, ht⟩ := h
      rw [List.cons_append] at ht
      injection ht with h1 h2
      subst h1
      exact Or.inr (by rw [(List.append_eq_nil.mp h2).1])

theorem prefix_of_pair {a b : String} {q : List String} (h : q <+: [a, b]) :
    q = [] ∨ q = [a] ∨ q = [a, b] := by
  cases q with
  | nil => exact Or.inl rfl
  | cons x q' =>
      obtain ⟨t, ht⟩ := h
      rw [List.cons_append] at ht
      injection ht with h1 h2
      subst h1
      rcases prefix_of_single ⟨t, h2⟩ with h4 | h4
      · exact Or.inr (Or.inl (by rw [h4]))
      · exact Or.inr (Or.inr (by rw [h4]))

theorem fsOnePdf_wf : FSWF fsOnePdf := by
  refine ⟨by decide, ?_, ?_⟩
  · intro p hp q hpre hne
    have hp2 : p = ["d", "a.pdf"] := by simpa [fsOnePdf] using hp
    subst hp2
    rcases prefix_of_pair hpre with rfl | rfl | rfl
    · decide
    · decide
    · exact absurd rfl hne
  · intro p hp q hpre hne
    have hp2 : p = [] ∨ p = ["d"] := by simpa [fsOnePdf] using hp
    rcases hp2 with rfl | rfl
    · exact absurd (List.prefix_nil.mp hpre) hne
    · rcases prefix_of_single hpre with rfl | rfl
      · decide
      · exact absurd rfl hne

theorem c2_organize_undo_restores_witness :
    organizeThenUndo cfgDocs (fun _ => 0) [["d", "a.pdf"]] fsOnePdf = some fsOnePdf := by
  unfold organizeThenUndo
  cases hrun : organizeRun cfgDocs (fun _ => 0) false true true [["d", "a.pdf"]]
      fsOnePdf with
  | error e =>
      have hok : (organizeRun cfgDocs (fun _ => 0) false true true [["d", "a.pdf"]]
          fsOnePdf).isOk = true := by decide
      rw [hrun] at hok
      cases hok
  | ok st =>
      show some (undoCommand st.entries st.fs).1 = some fsOnePdf
      refine congrArg some ?_
      exact c2_organize_undo_restores cfgDocs (fun _ => 0) ["d"] [["d", "a.pdf"]]
        fsOnePdf st fsOnePdf_wf ⟨by decide, by decide⟩ (by decide)
        (by
          intro f hf
          simp only [List.mem_singleton] at hf
          exact ⟨"a.pdf", by rw [hf]; rfl⟩)
        hrun

theorem createDir_dry_frame (st : OrgState) (dp : FPath) :
    (createDirStep true st dp).fs = st.fs ∧
    (createDirStep true st dp).entries = st.entries ∧
    (createDirStep true st dp).batch = st.batch ∧
    (createDirStep true st dp).historyText = st.historyText := by
  unfold createDirStep
  split
  · exact ⟨rfl, rfl, rfl, rfl⟩
  · exact ⟨rfl, rfl, rfl, rfl⟩

theorem orgStep_dry_eq (cfg : FileCategories) (sizes : FPath → Nat)
    (sd : OrgState) (d : FPath) (nm dest : String) (cache2 : RuleCache)
    (hmem : d ++ [nm] ∈ sd.fs.files)
    (hany : ¬ (sd.createdDirs.any (fun cd => cd.isPrefixOf (d ++ [nm])) = true))
    (hdne : dest ≠ "")
    (hcat : categorizeFile cfg sd.cache (pySuffix nm) (sizes (d ++ [nm])) =
      .ok (dest, cache2)) :
    organizeStep cfg sizes true sd (d ++ [nm]) =
      .ok (moveFileStep true
        (createDirStep true { sd with cache := cache2 } (d ++ [dest]))
        (d ++ [nm]) (d ++ [dest]) nm) := by
  unfold organizeStep
  rw [if_neg (not_not_intro hmem), if_neg hany]
  simp only [nameOf_concat]
  rw [hcat]
  simp only [parentOf_concat, if_neg hdne, Bool.true_eq_false, and_false, if_false]

theorem orgStep_dry_main (cfg : FileCategories) (sizes : FPath → Nat)
    (sd : OrgState) (d : FPath) (nm dest : String) (cache2 : RuleCache)
    (hmem : d ++ [nm] ∈ sd.fs.files)
    (hany : ¬ (sd.createdDirs.any (fun cd => cd.isPrefixOf (d ++ [nm])) = true))
    (hdne : dest ≠ "")
    (hcat : categorizeFile cfg sd.cache (pySuffix nm) (sizes (d ++ [nm])) =
      .ok (dest, cache2))
    (hnoex : ¬ pathExistsIn sd.fs (d ++ [dest])) :
    ∃ sd2, organizeStep cfg sizes true sd (d ++ [nm]) = .ok sd2 ∧
      sd2.fs = sd.fs ∧ sd2.cache = cache2 ∧ sd2.entries = sd.entries ∧
      sd2.batch = sd.batch ∧ sd2.historyText = sd.historyText ∧
      sd2.movedFilesCount = sd.movedFilesCount + 1 ∧
      sd2.errorsCount = sd.errorsCount ∧
      sd2.createdDirs = (if d ++ [dest] ∈ sd.createdDirs then sd.createdDirs
        else sd.createdDirs ++ [d ++ [dest]]) ∧
      sd2.createdDirCount = (if d ++ [dest] ∈ sd.createdDirs then sd.createdDirCount
        else sd.createdDirCount + 1) := by
  have heq := orgStep_dry_eq cfg sizes sd d nm dest cache2 hmem hany hdne hcat
  by_cases hcr : d ++ [dest] ∈ sd.createdDirs
  · have hcd : createDirStep true { sd with cache := cache2 } (d ++ [dest]) =
        { sd with cache := cache2 } :=
      createDir_dry_noop _ _ (Or.inl hcr)
    refine ⟨_, heq, ?_, ?_, ?_, ?_, ?_, ?_, ?_, ?_, ?_⟩
    all_goals rw [moveFile_dry, hcd]
    all_goals rw [if_pos hcr]
  · have hcd : createDirStep true { sd with cache := cache2 } (d ++ [dest]) =
        { ({ sd with cache := cache2 } : OrgState) with
          createdDirs := ({ sd with cache := cache2 } : OrgState).createdDirs ++ [d ++ [dest]],
          createdDirCount := ({ sd with cache := cache2 } : OrgState).createdDirCount + 1 } :=
      createDir_dry_acts _ _ hcr hnoex
    refine ⟨_, heq, ?_, ?_, ?_, ?_, ?_, ?_, ?_, ?_, ?_⟩
    all_goals rw [moveFile_dry, hcd]
    all_goals rw [if_neg hcr]

theorem orgStep_dry_frame (cfg : FileCategories) (sizes : FPath → Nat)
    (st st2 : OrgState) (f : FPath)
    (h : organizeStep cfg sizes true st f = .ok st2) :
    st2.fs = st.fs ∧ st2.entries = st.entries ∧ st2.batch = st.batch ∧
      st2.historyText = st.historyText := by
  unfold organizeStep at h
  by_cases h1 : f ∉ st.fs.files
  · rw [if_pos h1] at h
    cases h
    exact ⟨rfl, rfl, rfl, rfl⟩
  · rw [if_neg h1] at h
    by_cases h2 : st.createdDirs.any (fun cd => cd.isPrefixOf f) = true
    · rw [if_pos h2] at h
      cases h
      exact ⟨rfl, rfl, rfl, rfl⟩
    · rw [if_neg h2] at h
      cases hcat : categorizeFile cfg st.cache (pySuffix (nameOf f)) (sizes f) with
      | error e =>
          rw [hcat] at h
          cases h
      | ok p =>
          obtain ⟨dest, cache2⟩ := p
          rw [hcat] at h
          simp only [Bool.true_eq_false, and_false, if_false] at h
          cases h
          obtain ⟨a, b, c, dd⟩ := createDir_dry_frame { st with cache := cache2 }
            (parentOf f ++ if dest = "" then [] else [dest])
          exact ⟨a, b, c, dd⟩

theorem orgFold_dry_frame (cfg : FileCategories) (sizes : FPath → Nat) :
    ∀ (cands : List FPath) (st st2 : OrgState),
      orgFold cfg sizes true cands st = .ok st2 →
      st2.fs = st.fs ∧ st2.entries = st.entries ∧ st2.batch = st.batch ∧
        st2.historyText = st.historyText := by
  intro cands
  induction cands with
  | nil =>
      intro st st2 h
      cases h
      exact ⟨rfl, rfl, rfl, rfl⟩
  | cons f rest ih =>
      intro st st2 h
      unfold orgFold at h
      cases hstep : organizeStep cfg sizes true st f with
      | error e =>
          rw [hstep] at h
          cases h
      | ok st1 =>
          rw [hstep] at h
          obtain ⟨a1, b1, c1, d1⟩ := orgStep_dry_frame cfg sizes st st1 f hstep
          obtain ⟨a2, b2, c2, d2⟩ := ih st1 st2 h
          exact ⟨a2.trans a1, b2.trans b1, c2.trans c1, d2.trans d1⟩

theorem orgFold_sim (d : FPath) (cfg : FileCategories) (sizes : FPath → Nat)
    (fs₀ : FS) (hcfg : CfgWF cfg)
    (hfree : ∀ n ∈ destNames cfg, d ++ [n] ∉ fs₀.files ∧ d ++ [n] ∉ fs₀.dirs) :
    ∀ (cands : List FPath) (st sd : OrgState) (ms : List (FPath × FPath)) (st2 : OrgState),
      cands.Nodup →
      (∀ f ∈ cands, ∃ n, f = d ++ [n]) →
      (∀ f ∈ cands, f ∉ ms.map Prod.fst) →
      OrgInvMs d cfg fs₀ st ms →
      sd.fs = fs₀ →
      sd.cache = st.cache →
      sd.createdDirs = st.createdDirs →
      sd.createdDirCount = st.createdDirCount →
      sd.movedFilesCount = st.movedFilesCount →
      sd.errorsCount = st.errorsCount →
      orgFold cfg sizes false cands st = .ok st2 →
      ∃ sd2, orgFold cfg sizes true cands sd = .ok sd2 ∧
        sd2.movedFilesCount = st2.movedFilesCount ∧
        sd2.createdDirCount = st2.createdDirCount ∧
        sd2.errorsCount = st2.errorsCount := by
  intro cands
  induction cands with
  | nil =>
      intro st sd ms st2 _ _ _ _ _ hc hcd hcdc hmv herr hrun
      cases hrun
      exact ⟨sd, rfl, hmv, hcdc, herr⟩
  | cons f rest ih =>
      intro st sd ms st2 hnd hshape hnotmoved hinv hsdfs hc hcd hcdc hmv herr hrun
      unfold orgFold at hrun
      obtain ⟨nm, rfl⟩ := hshape f (by simp)
      have hndr : rest.Nodup := (List.nodup_cons.mp hnd).2
      have hhead : d ++ [nm] ∉ rest := (List.nodup_cons.mp hnd).1
      by_cases hmem : d ++ [nm] ∈ st.fs.files
      · have hf₀ := (cand_facts_of_inv d cfg fs₀ st ms nm hinv hmem).1
        have hmemD : d ++ [nm] ∈ sd.fs.files := by
          rw [hsdfs]
          exact hf₀
        have hanyR := any_created_false_of_inv d cfg fs₀ st ms nm hinv hmem
        have hanyD : ¬ (sd.createdDirs.any (fun cd => cd.isPrefixOf (d ++ [nm])) = true) := by
          rw [hcd]
          exact hanyR
        cases hcat : categorizeFile cfg st.cache (pySuffix nm) (sizes (d ++ [nm])) with
        | error e =>
            have hstep : organizeStep cfg sizes false st (d ++ [nm]) = .error e := by
              unfold organizeStep
              rw [if_neg (not_not_intro hmem), if_neg hanyR]
              simp only [nameOf_concat]
              rw [hcat]
            rw [hstep] at hrun
            cases hrun
        | ok p =>
            obtain ⟨dest, cache2⟩ := p
            obtain ⟨hdest, hdne, _⟩ :=
              categorizeFile_props cfg st.cache cache2 _ _ dest hcfg hinv.cacheGood hcat
            obtain ⟨st3, t, hstepR, hinv3, hcac3, hmv3, herr3, hcds3, hcdc3⟩ :=
              orgStep_real_main d cfg sizes fs₀ st ms nm dest cache2 hcfg hfree hinv
                hmem hcat
            have hcatD : categorizeFile cfg sd.cache (pySuffix nm) (sizes (d ++ [nm])) =
                .ok (dest, cache2) := by
              rw [hc]
              exact hcat
            have hnoexD : ¬ pathExistsIn sd.fs (d ++ [dest]) := by
              rw [hsdfs]
              rintro (hcx | hcx)
              · exact (hfree dest hdest).1 hcx
              · exact (hfree dest hdest).2 hcx
            obtain ⟨sd2, hstepD, hfsD, hcacD, _, _, _, hmvD, herrD, hcdsD, hcdcD⟩ :=
              orgStep_dry_main cfg sizes sd d nm dest cache2 hmemD hanyD hdne hcatD hnoexD
            rw [hstepR] at hrun
            have hfoldD : orgFold cfg sizes true ((d ++ [nm]) :: rest) sd =
                orgFold cfg sizes true rest sd2 := by
              have hstepEq : orgFold cfg sizes true ((d ++ [nm]) :: rest) sd =
                  match organizeStep cfg sizes true sd (d ++ [nm]) with
                  | .error e => .error e
                  | .ok st2 => orgFold cfg sizes true rest st2 := rfl
              rw [hstepEq, hstepD]
            rw [hfoldD]
            refine ih st3 sd2 (ms ++ [(d ++ [nm], t)]) st2 hndr
              (fun g hg => hshape g (by simp [hg])) ?_ hinv3
              (hfsD.trans hsdfs) (hcacD.trans hcac3.symm) ?_ ?_ ?_
              (herrD.trans (herr.trans herr3.symm)) hrun
            · intro g hg
              rw [List.map_append]
              intro hcx
              rcases List.mem_append.mp hcx with h1 | h1
              · exact hnotmoved g (by simp [hg]) h1
              · have : g = d ++ [nm] := by simpa using h1
                exact hhead (this ▸ hg)
            · rw [hcdsD, hcds3, hcd]
            · rw [hcdcD, hcdc3, hcd, hcdc]
            · rw [hmvD, hmv3, hmv]
      · have hmemD : d ++ [nm] ∉ sd.fs.files := by
          rw [hsdfs]
          intro hcx
          apply hmem
          rw [hinv.filesEq]
          refine Finset.mem_union_left _ (Finset.mem_sdiff.mpr ⟨hcx, ?_⟩)
          intro hO
          exact hnotmoved (d ++ [nm]) (by simp) (List.mem_toFinset.mp hO)
        rw [orgStep_skip cfg sizes false st _ hmem] at hrun
        have hfoldD : orgFold cfg sizes true ((d ++ [nm]) :: rest) sd =
            orgFold cfg sizes true rest sd := by
          have hstepEq : orgFold cfg sizes true ((d ++ [nm]) :: rest) sd =
              match organizeStep cfg sizes true sd (d ++ [nm]) with
              | .error e => .error e
              | .ok st2 => orgFold cfg sizes true rest st2 := rfl
          rw [hstepEq, orgStep_skip cfg sizes true sd _ hmemD]
        rw [hfoldD]
        exact ih st sd ms st2 hndr (fun g hg => hshape g (by simp [hg]))
          (fun g hg => hnotmoved g (by simp [hg])) hinv hsdfs hc hcd hcdc hmv herr hrun

/-- C8.  Amended claim.  First part: with `dry_run` set, `organize`
mutates no filesystem state and writes nothing to the history file (the
final state carries the initial filesystem, an empty history text and no
logged entries).  Second part: the dry run reports the same
moved/created/error counters as the real run, provided the candidate list
enumerates immediate children of the organized directory without
repetition and no possible destination name of the rule set coincides
with the name of an entry of that directory. -/
theorem c8_dry_run_frame_and_counts :
    (∀ (cfg : FileCategories) (sizes : FPath → Nat) (nh ld : Bool)
        (cands : List FPath) (fs₀ : FS) (st : OrgState),
      organizeRun cfg sizes true nh ld cands fs₀ = .ok st →
      st.fs = fs₀ ∧ st.historyText = "" ∧ st.entries = []) ∧
    (∀ (cfg : FileCategories) (sizes : FPath → Nat) (d : FPath)
        (cands : List FPath) (fs₀ : FS) (st : OrgState) (nh ld nhD ldD : Bool),
      CfgWF cfg →
      (∀ n ∈ destNames cfg, d ++ [n] ∉ fs₀.files ∧ d ++ [n] ∉ fs₀.dirs) →
      (∀ f ∈ cands, ∃ n, f = d ++ [n]) →
      cands.Nodup →
      organizeRun cfg sizes false nh ld cands fs₀ = .ok st →
      ∃ sd, organizeRun cfg sizes true nhD ldD cands fs₀ = .ok sd ∧
        sd.movedFilesCount = st.movedFilesCount ∧
        sd.createdDirCount = st.createdDirCount ∧
        sd.errorsCount = st.errorsCount) := by
  constructor
  · intro cfg sizes nh ld cands fs₀ st hrun
    unfold organizeRun at hrun
    cases hfold : orgFold cfg sizes true cands (initOrgState fs₀ true nh) with
    | error e =>
        rw [hfold] at hrun
        cases hrun
    | ok stM =>
        rw [hfold] at hrun
        obtain ⟨a, b, c, dd⟩ := orgFold_dry_frame cfg sizes cands _ stM hfold
        cases hrun
        rw [if_neg (fun hcx => absurd hcx.2 (by decide))]
        exact ⟨a, dd, b⟩
  · intro cfg sizes d cands fs₀ st nh ld nhD ldD hcfg hfree hshape hnd hrun
    unfold organizeRun at hrun
    cases hfoldR : orgFold cfg sizes false cands (initOrgState fs₀ false nh) with
    | error e =>
        rw [hfoldR] at hrun
        cases hrun
    | ok stM =>
        rw [hfoldR] at hrun
        obtain ⟨sd2, hfoldD, hm, hcdc, herr⟩ := orgFold_sim d cfg sizes fs₀ hcfg hfree
          cands (initOrgState fs₀ false nh) (initOrgState fs₀ true nhD) [] stM hnd
          hshape (by simp) (orgInvMs_init d cfg fs₀ false nh) rfl rfl rfl rfl rfl rfl
          hfoldR
        cases hrun
        have hdryRun : organizeRun cfg sizes true nhD ldD cands fs₀ = .ok sd2 := by
          unfold organizeRun
          rw [hfoldD]
          show (Except.ok (if sd2.batch ≠ [] ∧ (true = false) then finalizeHistory ldD sd2
            else sd2) : Except ConfigError OrgState) = .ok sd2
          rw [if_neg (fun hcx => absurd hcx.2 (by decide))]
        have hstfields :
            (if stM.batch ≠ [] ∧ (false = false) then finalizeHistory ld stM
              else stM).movedFilesCount = stM.movedFilesCount ∧
            (if stM.batch ≠ [] ∧ (false = false) then finalizeHistory ld stM
              else stM).createdDirCount = stM.createdDirCount ∧
            (if stM.batch ≠ [] ∧ (false = false) then finalizeHistory ld stM
              else stM).errorsCount = stM.errorsCount := by
          by_cases hbn : stM.batch ≠ [] ∧ (false = false)
          · rw [if_pos hbn]
            obtain ⟨_, _, _, h4, h5, h6⟩ := finalizeHistory_frame ld stM
            exact ⟨h4, h5, h6⟩
          · rw [if_neg hbn]
            exact ⟨rfl, rfl, rfl⟩
        exact ⟨sd2, hdryRun, hm.trans hstfields.1.symm, hcdc.trans hstfields.2.1.symm,
          herr.trans hstfields.2.2.symm⟩

theorem c8_dry_run_frame_and_counts_witness :
    (organizeRun cfgDocs (fun _ => 0) true true true [["d", "a.pdf"]] fsOnePdf).map
        (fun sd => sd.fs) = .ok fsOnePdf ∧
    (organizeRun cfgDocs (fun _ => 0) true true true [["d", "a.pdf"]] fsOnePdf).map
        (fun sd => sd.historyText) = .ok "" ∧
    (organizeRun cfgDocs (fun _ => 0) true true true [["d", "a.pdf"]] fsOnePdf).map
        (fun sd => sd.entries) = .ok [] ∧
    (organizeRun cfgDocs (fun _ => 0) true true true [["d", "a.pdf"]] fsOnePdf).map
        (fun sd => (sd.movedFilesCount, sd.createdDirCount, sd.errorsCount)) =
      (organizeRun cfgDocs (fun _ => 0) false true true [["d", "a.pdf"]] fsOnePdf).map
        (fun st => (st.movedFilesCount, st.createdDirCount, st.errorsCount)) := by
  cases hrun : organizeRun cfgDocs (fun _ => 0) false true true [["d", "a.pdf"]]
      fsOnePdf with
  | error e =>
      have hok : (organizeRun cfgDocs (fun _ => 0) false true true [["d", "a.pdf"]]
          fsOnePdf).isOk = true := by decide
      rw [hrun] at hok
      cases hok
  | ok st =>
      obtain ⟨sd, hsd, h1, h2, h3⟩ := c8_dry_run_frame_and_counts.2 cfgDocs (fun _ => 0)
        ["d"] [["d", "a.pdf"]] fsOnePdf st true true true true
        ⟨by decide, by decide⟩ (by decide)
        (by
          intro f hf
          simp only [List.mem_singleton] at hf
          exact ⟨"a.pdf", by rw [hf]; rfl⟩)
        (by decide) hrun
      obtain ⟨hfsd, hht, hent⟩ := c8_dry_run_frame_and_counts.1 cfgDocs (fun _ => 0)
        true true [["d", "a.pdf"]] fsOnePdf sd hsd
      rw [hsd]
      simp only [Except.map]
      exact ⟨by rw [hfsd], by rw [hht], by rw [hent], by rw [h1, h2, h3]⟩
